import Mathlib

/-!
Verification of the OTA (over-the-air firmware update) core of the
Weather-Station embedded firmware (`src/main.rs`, struct `OtaManager`).

The Rust code is shallowly embedded: the manager struct becomes the
structure `OtaSt`, every mutating method becomes a function
`OtaSt → ... → OtaSt × Outcome` (the `Outcome` models the returned
`anyhow::Result<()>`; `Outcome.restart` models the non-returning
`esp_restart()`), and machine integers are `Nat` with explicit `% 2^32`
where the Rust code uses `u32`/32-bit `usize` arithmetic.

External collaborators are modelled at their contract boundary:
  * the MQTT client (`esp_mqtt_client_publish`) always succeeds and is
    recorded as a structured event in the ghost field `published`
    (JSON serialisation by `serde_json` is abstracted into the
    constructors of `TelemetryPayload` / `PubEvent`);
  * the flash/OTA driver (`esp_partition_erase_range`, `esp_ota_begin`,
    `esp_ota_write`, `esp_ota_end`, `esp_ota_set_boot_partition`)
    returns `ESP_OK`; each `esp_ota_write` is recorded in the ghost
    field `flashWrites`;
  * the `sha2` crate's incremental hasher is modelled by the list of
    bytes fed to it (field `hasher`); `finalize` is the SHA-256
    function `sha256Hex` implemented below;
  * JSON decoding of the shared-attributes response body is abstracted:
    `handle_shared_attributes` receives the already-decoded optional
    fields of the `shared` object (`SharedAttrs`).

`xTaskGetTickCount()` is passed in as the parameter `now`.
`configTICK_RATE_HZ` comes from the ESP-IDF `sdkconfig`, which is not
part of the repository; it is modelled from the spec (see below).
-/

def U32 : Nat := 2 ^ 32

/-- Modelled from the spec: `configTICK_RATE_HZ` is defined by the
ESP-IDF `sdkconfig`, which is absent from the repository sources.  The
spec's boundary cases ("Chunk timeout at 9 999 ms does not re-request;
at 10 001 ms does") state a millisecond-granular tick, i.e. a 1000 Hz
tick rate. -/
def configTICK_RATE_HZ : Nat := 1000

/-- `fn ms_to_ticks(ms: u32) -> u32 { (ms as u64 * configTICK_RATE_HZ as u64 / 1000) as u32 }`
(the `u64` product of two `u32` values cannot overflow; the final cast
truncates to 32 bits). -/
def ms_to_ticks (ms : Nat) : Nat :=
  ms % U32 * configTICK_RATE_HZ / 1000 % U32

/-- Wrapping `u32` subtraction (release-mode `a - b` on `u32`),
for `a b < 2^32`. -/
def u32Sub (a b : Nat) : Nat := (a % U32 + U32 - b % U32) % U32

/-! ### Rust `str::trim`

`String.trim` from the Lean core library is defined through `Substring`
auxiliary functions that do not reduce in the kernel, so Rust's
`str::trim` is modelled directly on the character list.  Rust trims
`char::is_whitespace` characters; the ASCII subset (space, tab, LF, CR,
FF, VT) is modelled, which covers the ASCII payloads of this protocol. -/

def isWspChar (c : Char) : Bool :=
  c == ' ' || c == '\t' || c == '\n' || c == '\x0d' || c == '\x0c' || c == '\x0b'

def trimChars (l : List Char) : List Char :=
  ((l.dropWhile isWspChar).reverse.dropWhile isWspChar).reverse

/-- Model of Rust `str::trim`. -/
def strTrim (s : String) : String := String.mk (trimChars s.data)

/-- ASCII lower-casing, used only to state case-insensitivity claims. -/
def asciiLowerChar (c : Char) : Char :=
  if 65 ≤ c.toNat ∧ c.toNat ≤ 90 then Char.ofNat (c.toNat + 32) else c

def asciiLower (s : String) : String := String.mk (s.data.map asciiLowerChar)

/-! ### SHA-256 (the `sha2` crate)

A direct implementation of FIPS 180-4 SHA-256 over byte lists (bytes as
`Nat < 256`), with the final digest rendered as lowercase hex exactly as
the Rust code does (`result.iter().map(|b| format!("{:02x}", b))`). -/

def wadd (a b : Nat) : Nat := (a + b) % U32

def rotr32 (n x : Nat) : Nat := ((x >>> n) ||| (x <<< (32 - n))) % U32

def bsig0 (x : Nat) : Nat := rotr32 2 x ^^^ rotr32 13 x ^^^ rotr32 22 x
def bsig1 (x : Nat) : Nat := rotr32 6 x ^^^ rotr32 11 x ^^^ rotr32 25 x
def ssig0 (x : Nat) : Nat := rotr32 7 x ^^^ rotr32 18 x ^^^ (x >>> 3)
def ssig1 (x : Nat) : Nat := rotr32 17 x ^^^ rotr32 19 x ^^^ (x >>> 10)

def chFn (x y z : Nat) : Nat := (x &&& y) ^^^ ((x ^^^ (U32 - 1)) &&& z)
def majFn (x y z : Nat) : Nat := (x &&& y) ^^^ (x &&& z) ^^^ (y &&& z)

def sha256K : List Nat :=
  [1116352408, 1899447441, 3049323471, 3921009573, 961987163, 1508970993,
   2453635748, 2870763221, 3624381080, 310598401, 607225278, 1426881987,
   1925078388, 2162078206, 2614888103, 3248222580, 3835390401, 4022224774,
   264347078, 604807628, 770255983, 1249150122, 1555081692, 1996064986,
   2554220882, 2821834349, 2952996808, 3210313671, 3336571891, 3584528711,
   113926993, 338241895, 666307205, 773529912, 1294757372, 1396182291,
   1695183700, 1986661051, 2177026350, 2456956037, 2730485921, 2820302411,
   3259730800, 3345764771, 3516065817, 3600352804, 4094571909, 275423344,
   430227734, 506948616, 659060556, 883997877, 958139571, 1322822218,
   1537002063, 1747873779, 1955562222, 2024104815, 2227730452, 2361852424,
   2428436474, 2756734187, 3204031479, 3329325298]

def sha256InitH : List Nat :=
  [1779033703, 3144134277, 1013904242, 2773480762, 1359893119, 2600822924,
   528734635, 1541459225]

/-- `k` bytes of `v`, big-endian (most significant byte first). -/
def beBytes : Nat → Nat → List Nat
  | 0, _ => []
  | k + 1, v => beBytes k (v / 256) ++ [v % 256]

/-- Big-endian 32-bit words from a byte list. -/
def beWords : List Nat → List Nat
  | b0 :: b1 :: b2 :: b3 :: rest => (((b0 * 256 + b1) * 256 + b2) * 256 + b3) :: beWords rest
  | _ => []

/-- SHA-256 padding: append `0x80`, zero bytes to 56 mod 64, and the
bit length as a 64-bit big-endian integer. -/
def sha256Pad (msg : List Nat) : List Nat :=
  msg ++ [0x80] ++ List.replicate ((119 - msg.length % 64) % 64) 0 ++ beBytes 8 (8 * msg.length)

/-- Split into 64-byte blocks (structurally recursive on a length
bound, so that it reduces in the kernel). -/
def blocks512F : Nat → List Nat → List (List Nat)
  | _, [] => []
  | 0, _ => []
  | k + 1, l => l.take 64 :: blocks512F k (l.drop 64)

def blocks512 (l : List Nat) : List (List Nat) := blocks512F l.length l

/-- One extension step of the message schedule: appends word
`W[n] = σ1(W[n-2]) + W[n-7] + σ0(W[n-15]) + W[n-16]`. -/
def schedStep (w : List Nat) : List Nat :=
  let n := w.length
  w ++ [wadd (wadd (ssig1 (w.getD (n - 2) 0)) (w.getD (n - 7) 0))
             (wadd (ssig0 (w.getD (n - 15) 0)) (w.getD (n - 16) 0))]

def schedN : Nat → List Nat → List Nat
  | 0, w => w
  | t + 1, w => schedN t (schedStep w)

/-- Full 64-word message schedule from the 16 block words. -/
def sha256Schedule (w : List Nat) : List Nat := schedN 48 w

/-- One compression round on state `[a,b,c,d,e,f,g,h]`. -/
def sha256Round (st : List Nat) (kt wt : Nat) : List Nat :=
  match st with
  | [a, b, c, d, e, f, g, h] =>
    let t1 := wadd (wadd (wadd h (bsig1 e)) (wadd (chFn e f g) kt)) wt
    let t2 := wadd (bsig0 a) (majFn a b c)
    [wadd t1 t2, a, b, c, wadd d t1, e, f, g]
  | other => other

def sha256Compress (h : List Nat) (block : List Nat) : List Nat :=
  let w := sha256Schedule (beWords block)
  let fin := (sha256K.zip w).foldl (fun s kw => sha256Round s kw.1 kw.2) h
  (h.zip fin).map (fun p => wadd p.1 p.2)

/-- SHA-256 digest of a byte list, as 32 bytes. -/
def sha256Bytes (msg : List Nat) : List Nat :=
  (((blocks512 (sha256Pad msg)).foldl sha256Compress sha256InitH).map (beBytes 4)).flatten

def hexDigit (n : Nat) : Char :=
  if n < 10 then Char.ofNat (48 + n) else Char.ofNat (87 + n)

/-- Two lowercase hex digits, as Rust's `format!("{:02x}", b)`. -/
def hexByte (b : Nat) : String := String.mk [hexDigit (b / 16), hexDigit (b % 16)]

/-- The hex digest string the Rust code computes from the hasher:
`result.iter().map(|b| format!("{:02x}", b)).collect::<String>()`. -/
def sha256Hex (msg : List Nat) : String :=
  String.join ((sha256Bytes msg).map hexByte)

/-! ### Data model (`enum OtaState`, `struct OtaManager`) -/

inductive OtaState
  | idle
  | downloading
  | downloaded
  | verifying
  | updating
  | updated
  | failed (reason : String)
deriving DecidableEq, Repr

/-- Structured rendering of the telemetry JSON payloads of
`send_ota_telemetry` (serialisation order abstracted).  The
`DOWNLOADING` payload's `progress` float is represented by the data it
is computed from (`received_size`, `fw_size`). -/
inductive TelemetryPayload
  | idle (title ver : String)
  | downloading (title ver : String) (receivedSize : Nat) (fwSize : Option Nat)
  | downloaded (title ver : String)
  | verifying (title ver : String)
  | updating (title ver : String)
  | updated (title ver : String)
  | failed (fw_error : String)
deriving DecidableEq, Repr

/-- Structured record of each successful `mqtt_publish`. -/
inductive PubEvent
  | attrRequest (requestId : Nat)
  | chunkRequest (firmwareRequestId chunkIndex chunkSize : Nat)
  | telemetry (payload : TelemetryPayload)
deriving DecidableEq, Repr

/-- Models the `anyhow::Result<()>` returned by the manager's methods.
`restart` models the non-returning `esp_restart()`: it propagates
through every caller and no further code runs. -/
inductive Outcome
  | ok
  | err (msg : String)
  | restart
deriving DecidableEq, Repr

/-- The `OtaManager` struct.  `hasher` is the byte stream fed to the
SHA-256 hasher; `published`, `flashWrites`, `stateLog` and `restarted`
are ghost fields recording the externally observable effects
(MQTT publishes, `esp_ota_write` calls, every assignment to
`ota_state`, and `esp_restart`). -/
@[ext]
structure OtaSt where
  current_fw_title : String
  current_fw_version : String
  fw_title : Option String
  fw_version : Option String
  fw_size : Option Nat
  fw_checksum : Option String
  fw_checksum_algorithm : Option String
  ota_state : OtaState
  request_id : Nat
  firmware_request_id : Nat
  current_chunk : Nat
  received_size : Nat
  hasher : List Nat
  chunk_buffer : List (Nat × List Nat)
  chunk_size : Nat
  last_chunk_received : Nat
  telemetry_counter : Nat
  published : List PubEvent
  flashWrites : List (List Nat)
  stateLog : List OtaState
  restarted : Bool
deriving DecidableEq, Repr

/-- `OtaManager::new()` (the partition-table scan only logs). -/
def OtaManager.new : OtaSt :=
  { current_fw_title := "Weather Station"
    current_fw_version := "V1.0"
    fw_title := none
    fw_version := none
    fw_size := none
    fw_checksum := none
    fw_checksum_algorithm := none
    ota_state := .idle
    request_id := 0
    firmware_request_id := 0
    current_chunk := 0
    received_size := 0
    hasher := []
    chunk_buffer := []
    chunk_size := 4096
    last_chunk_received := 0
    telemetry_counter := 0
    published := []
    flashWrites := []
    stateLog := []
    restarted := false }

/-- Every `self.ota_state = s` assignment, with the ghost log. -/
def setOtaState (st : OtaSt) (s : OtaState) : OtaSt :=
  { st with ota_state := s, stateLog := st.stateLog ++ [s] }

/-- `mqtt_publish` (modelled as succeeding; the event is recorded). -/
def mqttPublish (st : OtaSt) (ev : PubEvent) : OtaSt :=
  { st with published := st.published ++ [ev] }

/-- The payload built by the `match &self.ota_state` in
`send_ota_telemetry`. -/
def telemetryPayload (st : OtaSt) : TelemetryPayload :=
  match st.ota_state with
  | .idle => .idle st.current_fw_title st.current_fw_version
  | .downloading => .downloading st.current_fw_title st.current_fw_version st.received_size st.fw_size
  | .downloaded => .downloaded st.current_fw_title st.current_fw_version
  | .verifying => .verifying st.current_fw_title st.current_fw_version
  | .updating => .updating st.current_fw_title st.current_fw_version
  | .updated => .updated st.current_fw_title st.current_fw_version
  | .failed e => .failed e

/-- `OtaManager::send_ota_telemetry`. -/
def send_ota_telemetry (st : OtaSt) : OtaSt × Outcome :=
  let st := { st with telemetry_counter := (st.telemetry_counter + 1) % U32 }
  if st.ota_state = .downloading ∧ st.telemetry_counter < ms_to_ticks 5000 / ms_to_ticks 100 then
    (st, .ok)
  else
    let st := { st with telemetry_counter := 0 }
    (mqttPublish st (.telemetry (telemetryPayload st)), .ok)

/-- In this model MQTT publishes succeed, so `send_ota_telemetry`
always returns `Ok` and a caller's `self.send_ota_telemetry(mqtt)?`
(or logged-and-ignored call) just keeps the updated state. -/
def sendTel (st : OtaSt) : OtaSt := (send_ota_telemetry st).1

/-- `OtaManager::request_firmware_chunk`. -/
def request_firmware_chunk (st : OtaSt) (chunk_index : Nat) : OtaSt × Outcome :=
  match st.fw_size with
  | some fwSize =>
    if st.received_size ≥ fwSize then
      (st, .ok)
    else
      (mqttPublish st (.chunkRequest st.firmware_request_id chunk_index st.chunk_size), .ok)
  | none =>
    (mqttPublish st (.chunkRequest st.firmware_request_id chunk_index st.chunk_size), .ok)

/-- `request_firmware_chunk` always returns `Ok` in this model
(publishes succeed), so `self.request_firmware_chunk(mqtt, i)?` keeps
the updated state. -/
def reqChunk (st : OtaSt) (chunk_index : Nat) : OtaSt :=
  (request_firmware_chunk st chunk_index).1

/-- `OtaManager::request_firmware_info`. -/
def request_firmware_info (st : OtaSt) : OtaSt × Outcome :=
  let st := { st with request_id := (st.request_id + 1) % U32 }
  (mqttPublish st (.attrRequest st.request_id), .ok)

/-- `OtaManager::process_firmware`.  `esp_ota_set_boot_partition`
returns `ESP_OK`; `esp_restart()` does not return (`Outcome.restart`). -/
def process_firmware (st : OtaSt) : OtaSt × Outcome :=
  let st := setOtaState st .verifying
  let st := sendTel st
  match st.fw_checksum with
  | some checksum =>
    let computed := sha256Hex st.hasher
    if computed = checksum then
      let st := setOtaState st .updating
      let st := sendTel st
      let st := { st with current_fw_title := st.fw_title.getD "",
                          current_fw_version := st.fw_version.getD "" }
      let st := setOtaState st .updated
      let st := sendTel st
      ({ st with restarted := true }, .restart)
    else
      let st := setOtaState st (.failed "Checksum verification failed")
      let st := sendTel st
      (st, .err "Checksum verification failed")
  | none =>
    let st := setOtaState st (.failed "No checksum provided")
    let st := sendTel st
    (st, .err "No checksum provided")

/-- Model of `Iterator::position` used by `process_buffered_chunks`. -/
def position (p : Nat × List Nat → Bool) : List (Nat × List Nat) → Option Nat
  | [] => none
  | x :: xs => if p x then some 0 else (position p xs).map (· + 1)

/-- Insertion by key, preserving the order of equal keys. -/
def insertByKey (x : Nat × List Nat) : List (Nat × List Nat) → List (Nat × List Nat)
  | [] => [x]
  | y :: ys => if x.1 < y.1 then x :: y :: ys else y :: insertByKey x ys

/-- Model of `Vec::sort_by_key(|&(index, _)| index)` (a stable sort by
key), as a stable insertion sort. -/
def sortByKey : List (Nat × List Nat) → List (Nat × List Nat)
  | [] => []
  | x :: xs => insertByKey x (sortByKey xs)

mutual

/-- `OtaManager::handle_firmware_chunk`, with a fuel argument for the
mutual recursion with `process_buffered_chunks` (the wrapper
`handle_firmware_chunk` below supplies fuel that always suffices: both
functions only shrink the buffer once recursion starts).
`esp_ota_write` / `esp_ota_end` return `ESP_OK`. -/
def handleFirmwareChunkF : Nat → OtaSt → List Nat → Nat → Nat → OtaSt × Outcome
  | 0, st, _, _, _ => (st, .err "model: out of fuel")
  | fuel + 1, st, data, chunk_index, now =>
    if chunk_index = st.current_chunk then
      if data.length = 0 then
        if st.received_size = st.fw_size.getD 0 then
          -- `esp_ota_end` ok, then `self.process_firmware(mqtt)?; return Ok(())`:
          -- the call's state and outcome are exactly those of `process_firmware`
          process_firmware (setOtaState st .downloaded)
        else
          let st := setOtaState st (.failed "Received empty chunk but size mismatch")
          let st := sendTel st
          (st, .err "Empty chunk received prematurely")
      else
        let st := { st with received_size := (st.received_size + data.length) % U32 }
        let st := { st with hasher := st.hasher ++ data }
        let st := { st with flashWrites := st.flashWrites ++ [data] }
        let st := { st with current_chunk := (st.current_chunk + 1) % U32,
                            last_chunk_received := now }
        match st.fw_size with
        | some fwSize =>
          if st.received_size ≥ fwSize then
            process_firmware (setOtaState st .downloaded)
          else
            match processBufferedChunksF fuel st now with
            | (st, .ok) => (reqChunk st st.current_chunk, .ok)
            | (st, e) => (st, e)
        | none => (st, .ok)
    else
      let st := { st with chunk_buffer := sortByKey (st.chunk_buffer ++ [(chunk_index, data)]) }
      processBufferedChunksF fuel st now

/-- `OtaManager::process_buffered_chunks` (the `while let` loop as a
recursion; each iteration removes the found entry and re-handles it). -/
def processBufferedChunksF : Nat → OtaSt → Nat → OtaSt × Outcome
  | 0, st, _ => (st, .err "model: out of fuel")
  | fuel + 1, st, now =>
    match position (fun e => e.1 = st.current_chunk) st.chunk_buffer with
    | none => (st, .ok)
    | some pos =>
      let data := (st.chunk_buffer.getD pos (0, [])).2
      let st := { st with chunk_buffer := st.chunk_buffer.eraseIdx pos }
      match handleFirmwareChunkF fuel st data st.current_chunk now with
      | (st, .ok) => processBufferedChunksF fuel st now
      | (st, e) => (st, e)

end

/-- `OtaManager::handle_firmware_chunk` with sufficient fuel: once the
mutual recursion starts each nested call removes a buffer entry, so the
call depth is bounded by `3 * buffer length + 8`. -/
def handle_firmware_chunk (st : OtaSt) (data : List Nat) (chunk_index now : Nat) :
    OtaSt × Outcome :=
  handleFirmwareChunkF (3 * st.chunk_buffer.length + 8) st data chunk_index now

/-- `OtaManager::check_chunk_timeout` (`now` is `xTaskGetTickCount()`). -/
def check_chunk_timeout (st : OtaSt) (now : Nat) : OtaSt × Outcome :=
  if st.ota_state = .downloading then
    if u32Sub now st.last_chunk_received > ms_to_ticks 10000 then
      let st := reqChunk st st.current_chunk
      ({ st with last_chunk_received := now }, .ok)
    else (st, .ok)
  else (st, .ok)

/-- The already-decoded `shared` object of an attributes-response body:
each field is present iff the JSON key is present with the right type
(`as_str` / `as_u64`), mirroring the `.get(..).and_then(..)` chain. -/
structure SharedAttrs where
  fw_title : Option String
  fw_version : Option String
  fw_size : Option Nat
  fw_checksum : Option String
  fw_checksum_algorithm : Option String
deriving DecidableEq, Repr

/-- The five field-storing `if let` blocks at the top of
`handle_shared_attributes` (strings trimmed, `fw_size as u32`). -/
def mergeAttrs (st : OtaSt) (shared : SharedAttrs) : OtaSt :=
  let st := match shared.fw_title with
    | some t => { st with fw_title := some (strTrim t) }
    | none => st
  let st := match shared.fw_version with
    | some v => { st with fw_version := some (strTrim v) }
    | none => st
  let st := match shared.fw_size with
    | some s => { st with fw_size := some (s % U32) }
    | none => st
  let st := match shared.fw_checksum with
    | some c => { st with fw_checksum := some (strTrim c) }
    | none => st
  match shared.fw_checksum_algorithm with
  | some a => { st with fw_checksum_algorithm := some (strTrim a) }
  | none => st

/-- The `for i in 0..3` pipeline-request loop of the session-start
path, unrolled (on a request error the state would become `Failed` and
the loop would break; in this model publishes succeed, so that branch
is unreachable and every iteration runs). -/
def pipelineRequests (st : OtaSt) : OtaSt :=
  let st := reqChunk st (st.current_chunk + 0)
  let st := reqChunk st (st.current_chunk + 1)
  reqChunk st (st.current_chunk + 2)

/-- `OtaManager::handle_shared_attributes` on the decoded `shared`
object.  Partition selection, `esp_partition_erase_range` and
`esp_ota_begin` are modelled as succeeding (external flash driver). -/
def handle_shared_attributes (st : OtaSt) (shared : SharedAttrs) (now : Nat) :
    OtaSt × Outcome :=
  let st := mergeAttrs st shared
  match st.fw_title, st.fw_version with
  | some fw_title, some fw_version =>
    if strTrim fw_title ≠ strTrim st.current_fw_title ∨
       strTrim fw_version ≠ strTrim st.current_fw_version then
      let st := setOtaState st .downloading
      let st := { st with firmware_request_id := (st.firmware_request_id + 1) % U32,
                          current_chunk := 0,
                          received_size := 0,
                          hasher := [],
                          chunk_buffer := [],
                          last_chunk_received := now }
      let st := pipelineRequests st
      let st := sendTel st
      (st, .ok)
    else
      (st, .ok)
  | _, _ => (st, .err "Incomplete firmware attributes received")

/-- Deliver a list of `(chunk_index, body)` messages to
`handle_firmware_chunk` in order; after `esp_restart()` nothing more
executes. -/
def deliverChunks (st : OtaSt) (ds : List (Nat × List Nat)) (now : Nat) : OtaSt :=
  ds.foldl (fun st c => if st.restarted then st else (handle_firmware_chunk st c.2 c.1 now).1) st

/-- The full chunk set of a firmware split into the bodies `cs`,
indexed in order: `[(0, cs[0]), ..., (N-1, cs[N-1])]`. -/
def indexChunks (cs : List (List Nat)) : List (Nat × List Nat) :=
  (List.range cs.length).map (fun i => (i, cs.getD i []))

/-! ### Closed forms of the basic operations -/

theorem send_shape (st : OtaSt) :
    ∃ tc pub, send_ota_telemetry st =
      ({ st with telemetry_counter := tc, published := pub }, Outcome.ok) := by
  unfold send_ota_telemetry
  dsimp only
  split
  · exact ⟨(st.telemetry_counter + 1) % U32, st.published, rfl⟩
  · exact ⟨0, _, rfl⟩

theorem sendTel_shape (st : OtaSt) :
    ∃ tc pub, sendTel st = { st with telemetry_counter := tc, published := pub } := by
  obtain ⟨tc, pub, h⟩ := send_shape st
  exact ⟨tc, pub, by rw [sendTel, h]⟩


theorem telemetryPayload_tc (st : OtaSt) (tc : Nat) :
    telemetryPayload { st with telemetry_counter := tc } = telemetryPayload st := rfl

/-- When the state is not `Downloading`, `send_ota_telemetry` always
publishes one telemetry payload and resets the counter. -/
theorem sendTel_publish (st : OtaSt) (h : st.ota_state ≠ OtaState.downloading) :
    sendTel st = { st with telemetry_counter := 0,
                           published := st.published ++ [.telemetry (telemetryPayload st)] } := by
  unfold sendTel send_ota_telemetry mqttPublish
  dsimp only
  rw [if_neg (by simp [h])]
  rw [telemetryPayload_tc]

theorem pf_none (st : OtaSt) (hcs : st.fw_checksum = none) :
    process_firmware st =
      ({ st with ota_state := OtaState.failed "No checksum provided",
                 stateLog := st.stateLog ++ [OtaState.verifying, OtaState.failed "No checksum provided"],
                 telemetry_counter := 0,
                 published := st.published ++
                   [.telemetry (.verifying st.current_fw_title st.current_fw_version),
                    .telemetry (.failed "No checksum provided")] },
       Outcome.err "No checksum provided") := by
  simp [process_firmware, sendTel, send_ota_telemetry, setOtaState, mqttPublish,
        telemetryPayload, hcs]

theorem pf_mismatch (st : OtaSt) (c : String) (hcs : st.fw_checksum = some c)
    (he : sha256Hex st.hasher ≠ c) :
    process_firmware st =
      ({ st with ota_state := OtaState.failed "Checksum verification failed",
                 stateLog := st.stateLog ++ [OtaState.verifying, OtaState.failed "Checksum verification failed"],
                 telemetry_counter := 0,
                 published := st.published ++
                   [.telemetry (.verifying st.current_fw_title st.current_fw_version),
                    .telemetry (.failed "Checksum verification failed")] },
       Outcome.err "Checksum verification failed") := by
  simp [process_firmware, sendTel, send_ota_telemetry, setOtaState, mqttPublish,
        telemetryPayload, hcs, he]

theorem pf_match (st : OtaSt) (c : String) (hcs : st.fw_checksum = some c)
    (he : sha256Hex st.hasher = c) :
    process_firmware st =
      ({ st with current_fw_title := st.fw_title.getD "",
                 current_fw_version := st.fw_version.getD "",
                 ota_state := OtaState.updated,
                 stateLog := st.stateLog ++ [OtaState.verifying, OtaState.updating, OtaState.updated],
                 telemetry_counter := 0,
                 published := st.published ++
                   [.telemetry (.verifying st.current_fw_title st.current_fw_version),
                    .telemetry (.updating st.current_fw_title st.current_fw_version),
                    .telemetry (.updated (st.fw_title.getD "") (st.fw_version.getD ""))],
                 restarted := true },
       Outcome.restart) := by
  simp [process_firmware, sendTel, send_ota_telemetry, setOtaState, mqttPublish,
        telemetryPayload, hcs, he]

theorem reqChunk_none (st : OtaSt) (i : Nat) (hs : st.fw_size = none) :
    reqChunk st i =
      { st with published := st.published ++
          [.chunkRequest st.firmware_request_id i st.chunk_size] } := by
  simp [reqChunk, request_firmware_chunk, mqttPublish, hs]

theorem reqChunk_lt (st : OtaSt) (i n : Nat) (hs : st.fw_size = some n)
    (h : st.received_size < n) :
    reqChunk st i =
      { st with published := st.published ++
          [.chunkRequest st.firmware_request_id i st.chunk_size] } := by
  simp [reqChunk, request_firmware_chunk, mqttPublish, hs, Nat.not_le.mpr h]

theorem reqChunk_suppressed (st : OtaSt) (i n : Nat) (hs : st.fw_size = some n)
    (h : n ≤ st.received_size) : reqChunk st i = st := by
  simp [reqChunk, request_firmware_chunk, hs, h]

theorem u32Sub_add (b e : Nat) (hb : b < U32) (he : e < U32) : u32Sub (b + e) b = e := by
  unfold u32Sub
  rw [Nat.mod_eq_of_lt hb]
  rcases Nat.lt_or_ge (b + e) U32 with h | h
  · rw [Nat.mod_eq_of_lt h]
    rw [show b + e + U32 - b = e + U32 by omega]
    rw [Nat.add_mod_right, Nat.mod_eq_of_lt he]
  · rw [Nat.mod_eq_sub_mod h, Nat.mod_eq_of_lt (by omega : b + e - U32 < U32)]
    rw [show b + e - U32 + U32 - b = e by omega]
    exact Nat.mod_eq_of_lt he

/-- The fuel argument of `handle_firmware_chunk` as a successor. -/
theorem fuel_succ (l : Nat) : 3 * l + 8 = (3 * l + 7) + 1 := rfl

/-- **C9** (functional correctness, implicit): when `fw_size` is `none`,
an in-order non-empty chunk is still hashed, written to flash and
counted (`received_size`, `current_chunk` advance, `last_chunk_received`
is re-stamped), but nothing else happens: the reorder buffer is not
drained, no next-chunk request is published, no state transition or
finalization occurs — the whole result state differs from the input
only in those five fields, so the session can progress further only via
the `check_chunk_timeout` re-request path. -/
theorem c9_no_size_commit (st : OtaSt) (data : List Nat) (now : Nat)
    (hsz : st.fw_size = none) (hne : data ≠ [])
    (hrec : st.received_size + data.length < U32)
    (hcur : st.current_chunk + 1 < U32) :
    handle_firmware_chunk st data st.current_chunk now =
      ({ st with received_size := st.received_size + data.length,
                 hasher := st.hasher ++ data,
                 flashWrites := st.flashWrites ++ [data],
                 current_chunk := st.current_chunk + 1,
                 last_chunk_received := now }, Outcome.ok) := by
  unfold handle_firmware_chunk
  rw [fuel_succ]
  simp [handleFirmwareChunkF, hsz, hne, Nat.mod_eq_of_lt hrec, Nat.mod_eq_of_lt hcur]

def c9St : OtaSt := { OtaManager.new with ota_state := .downloading }

theorem c9_no_size_commit_witness :
    handle_firmware_chunk c9St [5, 6] c9St.current_chunk 3 =
      ({ c9St with received_size := c9St.received_size + 2,
                   hasher := c9St.hasher ++ [5, 6],
                   flashWrites := c9St.flashWrites ++ [[5, 6]],
                   current_chunk := c9St.current_chunk + 1,
                   last_chunk_received := 3 }, Outcome.ok) :=
  c9_no_size_commit c9St [5, 6] 3 rfl (by decide) (by decide) (by decide)

/-- **C6** (error handling; amended): an empty body at index
`current_chunk` while `received_size ≠ fw_size` transitions to
`Failed`, publishes one `FAILED` telemetry whose `fw_error` equals the
state's failure reason, and returns an error — but the `Failed` reason
string (and hence the telemetry `fw_error`) is
`"Received empty chunk but size mismatch"`, while the *returned error*
is `"Empty chunk received prematurely"`. -/
theorem c6_empty_chunk_failure (st : OtaSt) (n now : Nat)
    (hsz : st.fw_size = some n) (hne : st.received_size ≠ n) :
    handle_firmware_chunk st [] st.current_chunk now =
      ({ st with ota_state := OtaState.failed "Received empty chunk but size mismatch",
                 stateLog := st.stateLog ++ [OtaState.failed "Received empty chunk but size mismatch"],
                 telemetry_counter := 0,
                 published := st.published ++
                   [.telemetry (.failed "Received empty chunk but size mismatch")] },
       Outcome.err "Empty chunk received prematurely") := by
  unfold handle_firmware_chunk
  rw [fuel_succ]
  simp [handleFirmwareChunkF, hsz, hne, setOtaState, sendTel, send_ota_telemetry,
        mqttPublish, telemetryPayload]

def c6St : OtaSt := { OtaManager.new with ota_state := .downloading, fw_size := some 10 }

/-- **C6** counterexample: at a concrete state the `Failed` reason the
claim asserts (`"empty chunk received prematurely"`) is not the one the
code produces. -/
theorem c6_counterexample :
    (handle_firmware_chunk c6St [] 0 0).1.ota_state =
        OtaState.failed "Received empty chunk but size mismatch" ∧
    (handle_firmware_chunk c6St [] 0 0).1.ota_state ≠
        OtaState.failed "empty chunk received prematurely" := by decide

theorem c6_empty_chunk_failure_witness :
    handle_firmware_chunk c6St [] c6St.current_chunk 7 =
      ({ c6St with ota_state := OtaState.failed "Received empty chunk but size mismatch",
                   stateLog := c6St.stateLog ++ [OtaState.failed "Received empty chunk but size mismatch"],
                   telemetry_counter := 0,
                   published := c6St.published ++
                     [.telemetry (.failed "Received empty chunk but size mismatch")] },
       Outcome.err "Empty chunk received prematurely") :=
  c6_empty_chunk_failure c6St 10 7 rfl (by decide)

/-- **C7** (functional correctness, confirmed): while `Downloading`,
`check_chunk_timeout` re-issues a request for `current_chunk` and
re-stamps `last_chunk_received` exactly when the elapsed ticks since the
last accepted chunk strictly exceed `ms_to_ticks 10000` (10 s; with the
spec's millisecond-granular tick, 9 999 ms elapsed does nothing and
10 001 ms re-requests). -/
theorem c7_chunk_timeout (st : OtaSt) (e : Nat)
    (hdl : st.ota_state = OtaState.downloading)
    (hb : st.last_chunk_received < U32) (he : e < U32)
    (hreq : st.fw_size = none ∨ ∃ n, st.fw_size = some n ∧ st.received_size < n) :
    (e ≤ ms_to_ticks 10000 →
      check_chunk_timeout st (st.last_chunk_received + e) = (st, Outcome.ok)) ∧
    (ms_to_ticks 10000 < e →
      check_chunk_timeout st (st.last_chunk_received + e) =
        ({ st with
             published := st.published ++
               [.chunkRequest st.firmware_request_id st.current_chunk st.chunk_size],
             last_chunk_received := st.last_chunk_received + e }, Outcome.ok)) := by
  unfold check_chunk_timeout
  rw [if_pos hdl, u32Sub_add _ _ hb he]
  constructor
  · intro hle
    rw [if_neg (Nat.not_lt.mpr hle)]
  · intro hgt
    rw [if_pos hgt]
    rcases hreq with hnone | ⟨n, hs, hlt⟩
    · rw [reqChunk_none st _ hnone]
    · rw [reqChunk_lt st _ n hs hlt]

def c7St : OtaSt :=
  { OtaManager.new with ota_state := .downloading, fw_size := some 100 }

theorem c7_chunk_timeout_witness :
    check_chunk_timeout c7St 9999 = (c7St, Outcome.ok) ∧
    check_chunk_timeout c7St 10001 =
      ({ c7St with
           published := c7St.published ++
             [.chunkRequest c7St.firmware_request_id c7St.current_chunk c7St.chunk_size],
           last_chunk_received := 10001 }, Outcome.ok) := by
  have h := c7_chunk_timeout c7St 9999 rfl (by decide) (by decide)
    (Or.inr ⟨100, rfl, by decide⟩)
  have h2 := c7_chunk_timeout c7St 10001 rfl (by decide) (by decide)
    (Or.inr ⟨100, rfl, by decide⟩)
  exact ⟨h.1 (by decide), h2.2 (by decide)⟩

/-- **C8** (functional correctness, confirmed): `send_ota_telemetry`
rate-limits only the `Downloading` state: there a call is suppressed
(counter merely advances) while the advanced counter is below
`ms_to_ticks(5000) / ms_to_ticks(100) = 50`, and the call that reaches
50 publishes one payload and resets the counter to 0; in every other
state each call publishes exactly one payload and resets the counter. -/
theorem c8_telemetry_rate_limit (st : OtaSt) (hc : st.telemetry_counter + 1 < U32) :
    ms_to_ticks 5000 / ms_to_ticks 100 = 50 ∧
    (st.ota_state = OtaState.downloading ∧ st.telemetry_counter + 1 < 50 →
      send_ota_telemetry st =
        ({ st with telemetry_counter := st.telemetry_counter + 1 }, Outcome.ok)) ∧
    ((st.ota_state = OtaState.downloading → 50 ≤ st.telemetry_counter + 1) →
      send_ota_telemetry st =
        ({ st with telemetry_counter := 0,
                   published := st.published ++ [.telemetry (telemetryPayload st)] },
         Outcome.ok)) := by
  refine ⟨rfl, ?_, ?_⟩
  · rintro ⟨hdl, hlt⟩
    unfold send_ota_telemetry
    dsimp only
    rw [Nat.mod_eq_of_lt hc]
    rw [if_pos ⟨hdl, by rw [show ms_to_ticks 5000 / ms_to_ticks 100 = 50 from rfl]; exact hlt⟩]
  · intro hor
    unfold send_ota_telemetry mqttPublish
    dsimp only
    rw [Nat.mod_eq_of_lt hc]
    rw [if_neg ?hneg]
    case hneg =>
      rintro ⟨hdl, hlt⟩
      rw [show ms_to_ticks 5000 / ms_to_ticks 100 = 50 from rfl] at hlt
      exact absurd hlt (Nat.not_lt.mpr (hor hdl))
    rw [telemetryPayload_tc]

def c8St : OtaSt := { OtaManager.new with ota_state := .downloading }

theorem c8_telemetry_rate_limit_witness :
    send_ota_telemetry c8St = ({ c8St with telemetry_counter := 1 }, Outcome.ok) ∧
    send_ota_telemetry OtaManager.new =
      ({ OtaManager.new with
           telemetry_counter := 0,
           published := [.telemetry (.idle "Weather Station" "V1.0")] }, Outcome.ok) := by
  have h1 := (c8_telemetry_rate_limit c8St (by decide)).2.1 ⟨rfl, by decide⟩
  have h2 := (c8_telemetry_rate_limit OtaManager.new (by decide)).2.2
    (fun hdl => absurd hdl (by decide))
  exact ⟨h1, by rw [h2]; rfl⟩

theorem position_eq_none (p : Nat × List Nat → Bool) (l : List (Nat × List Nat))
    (h : ∀ e ∈ l, p e = false) : position p l = none := by
  induction l with
  | nil => rfl
  | cons x xs ih =>
    unfold position
    rw [if_neg (by simp [h x (by simp)])]
    rw [ih (fun e he => h e (by simp [he]))]
    rfl

theorem pb_step_none (f : Nat) (st : OtaSt) (now : Nat)
    (h : position (fun e => e.1 = st.current_chunk) st.chunk_buffer = none) :
    processBufferedChunksF (f + 1) st now = (st, .ok) := by
  simp [processBufferedChunksF, h]

theorem pf_weak (st : OtaSt) :
    (process_firmware st).1.received_size = st.received_size ∧
    ∃ log, (process_firmware st).1.stateLog = st.stateLog ++ log := by
  cases hcs : st.fw_checksum with
  | none => rw [pf_none st hcs]; exact ⟨rfl, _, rfl⟩
  | some c =>
    by_cases he : sha256Hex st.hasher = c
    · rw [pf_match st c hcs he]; exact ⟨rfl, _, rfl⟩
    · rw [pf_mismatch st c hcs he]; exact ⟨rfl, _, rfl⟩

theorem pf_entered_downloaded (s : OtaSt) (base : List OtaState)
    (h : s.stateLog = base ++ [OtaState.downloaded]) :
    (process_firmware s).1.received_size = s.received_size ∧
    ∃ rest, (process_firmware s).1.stateLog = base ++ OtaState.downloaded :: rest := by
  obtain ⟨hrec, log, hlog⟩ := pf_weak s
  refine ⟨hrec, log, ?_⟩
  rw [hlog, h, List.append_assoc]
  rfl

/-- **C1** (invariants; amended): `received_size` grows by exactly the
accepted chunk's length, and the `Downloading → Downloaded` transition
fires exactly when `received_size` has reached **at least** `fw_size`
(the code tests `received_size >= fw_size`).  Provided no chunk
overshoots (`received_size + |data| ≤ fw_size`, e.g. when the chunk
sizes partition the image exactly), `received_size ≤ fw_size` is
preserved and the transition happens exactly at equality; an
overshooting chunk instead drives `received_size` beyond `fw_size` and
still enters `Downloaded` (see the counterexample). -/
theorem c1_no_overshoot_invariant (st : OtaSt) (data : List Nat) (n now : Nat)
    (hsz : st.fw_size = some n) (hn : n < U32)
    (hbuf : st.chunk_buffer = []) (hne : data ≠ [])
    (hle : st.received_size + data.length ≤ n) :
    (handle_firmware_chunk st data st.current_chunk now).1.received_size
        = st.received_size + data.length ∧
    (handle_firmware_chunk st data st.current_chunk now).1.received_size ≤ n ∧
    (st.received_size + data.length < n →
      (handle_firmware_chunk st data st.current_chunk now).1.stateLog = st.stateLog) ∧
    (st.received_size + data.length = n →
      ∃ rest, (handle_firmware_chunk st data st.current_chunk now).1.stateLog
        = st.stateLog ++ OtaState.downloaded :: rest) := by
  have hmod : (st.received_size + data.length) % U32 = st.received_size + data.length :=
    Nat.mod_eq_of_lt (Nat.lt_of_le_of_lt hle hn)
  unfold handle_firmware_chunk
  rw [hbuf]
  simp only [List.length_nil, Nat.mul_zero, Nat.zero_add]
  rw [show (8 : Nat) = 7 + 1 from rfl]
  simp only [handleFirmwareChunkF]
  rw [if_pos trivial]
  rw [if_neg (fun h0 => hne (List.length_eq_zero.mp h0))]
  simp only [hsz, hmod, hbuf]
  rcases Nat.lt_or_ge (st.received_size + data.length) n with hlt | hge
  · -- not complete: the drain is a no-op, one next-chunk request goes out
    rw [if_neg (Nat.not_le.mpr hlt)]
    rw [show (7 : Nat) = 6 + 1 from rfl]
    simp only [processBufferedChunksF, position]
    rw [reqChunk_lt _ _ n rfl hlt]
    exact ⟨rfl, hle, fun _ => rfl, fun habs => absurd habs (Nat.ne_of_lt hlt)⟩
  · -- complete: finalizes through `process_firmware` after entering `Downloaded`
    have heq : st.received_size + data.length = n := Nat.le_antisymm hle hge
    rw [if_pos hge]
    have h := pf_entered_downloaded (setOtaState
      { st with fw_size := some n,
                current_chunk := (st.current_chunk + 1) % U32,
                received_size := st.received_size + data.length,
                hasher := st.hasher ++ data,
                chunk_buffer := [],
                last_chunk_received := now,
                flashWrites := st.flashWrites ++ [data] } .downloaded) st.stateLog
      (by simp [setOtaState])
    refine ⟨h.1.trans rfl, ?_, fun habs => absurd habs (by omega), fun _ => h.2⟩
    rw [h.1]
    exact le_of_eq heq

def c1St : OtaSt := { OtaManager.new with ota_state := .downloading, fw_size := some 1 }

/-- **C1** counterexample: with `fw_size = 1`, a single 2-byte chunk at
index 0 drives `received_size` to `2 > 1` and the state still enters
`Downloaded` (the code tests `>=`, not `=`), refuting both
`received_size ≤ fw_size` and transition-only-at-equality. -/
theorem c1_counterexample :
    c1St.fw_size = some 1 ∧
    (handle_firmware_chunk c1St [0, 0] 0 0).1.received_size = 2 ∧
    OtaState.downloaded ∈ (handle_firmware_chunk c1St [0, 0] 0 0).1.stateLog := by decide

theorem c1_no_overshoot_invariant_witness :
    (handle_firmware_chunk { c1St with fw_size := some 2 } [0, 0]
        ({ c1St with fw_size := some 2 } : OtaSt).current_chunk 0).1.received_size = 2 ∧
    ∃ rest, (handle_firmware_chunk { c1St with fw_size := some 2 } [0, 0]
        ({ c1St with fw_size := some 2 } : OtaSt).current_chunk 0).1.stateLog
      = ({ c1St with fw_size := some 2 } : OtaSt).stateLog ++ OtaState.downloaded :: rest := by
  have h := c1_no_overshoot_invariant { c1St with fw_size := some 2 } [0, 0] 2 0
    rfl (by decide) rfl (by decide) (by decide)
  exact ⟨h.1, h.2.2.2 (by decide)⟩

theorem insertByKey_perm (x : Nat × List Nat) (l : List (Nat × List Nat)) :
    (insertByKey x l).Perm (x :: l) := by
  induction l with
  | nil => exact List.Perm.refl _
  | cons y ys ih =>
    unfold insertByKey
    split
    · exact List.Perm.refl _
    · exact (ih.cons y).trans (List.Perm.swap x y ys)

theorem sortByKey_perm (l : List (Nat × List Nat)) : (sortByKey l).Perm l := by
  induction l with
  | nil => exact List.Perm.refl _
  | cons x xs ih => exact (insertByKey_perm x (sortByKey xs)).trans (ih.cons x)

/-- A reachable state (after an in-order commit with `fw_size = None`,
which skips the drain) whose reorder buffer already holds the in-order
successor for `current_chunk`. -/
def c2DrainSt : OtaSt :=
  { OtaManager.new with ota_state := .downloading, current_chunk := 1,
                        chunk_buffer := [(1, [5])] }

/-- **C2** (functional correctness; amended): a replayed chunk
(`index < current_chunk`) is never itself committed, but it is *not*
silently discarded: the code's `else` arm inserts it into the (sorted)
reorder buffer and then drains the buffer.  Part 1: whenever the
buffer holds no entry at `current_chunk` (in particular when it is
empty, the ordinary replay state), the digest, flash log,
`received_size`, `current_chunk`, the OTA state and the publish log
are all unchanged and exactly `chunk_buffer` differs.  Part 2: that
proviso is necessary — in the reachable state `c2DrainSt`, which
buffers the in-order successor at `current_chunk`, the replayed
chunk's arrival triggers `process_buffered_chunks` to commit that
successor: digest, flash log, `received_size` and `current_chunk` all
advance, by the successor's bytes `[5]`, never the stale chunk's own
bytes `[9]`, which stay in the buffer. -/
theorem c2_stale_chunk_buffered :
    (∀ (st : OtaSt) (data : List Nat) (idx now : Nat),
      idx < st.current_chunk →
      (∀ e ∈ st.chunk_buffer, e.1 ≠ st.current_chunk) →
      handle_firmware_chunk st data idx now =
        ({ st with chunk_buffer := sortByKey (st.chunk_buffer ++ [(idx, data)]) },
         Outcome.ok)) ∧
    ((handle_firmware_chunk c2DrainSt [9] 0 0).1.hasher = [5] ∧
     (handle_firmware_chunk c2DrainSt [9] 0 0).1.flashWrites = [[5]] ∧
     (handle_firmware_chunk c2DrainSt [9] 0 0).1.received_size = 1 ∧
     (handle_firmware_chunk c2DrainSt [9] 0 0).1.current_chunk = 2 ∧
     (handle_firmware_chunk c2DrainSt [9] 0 0).1.chunk_buffer = [(0, [9])] ∧
     (handle_firmware_chunk c2DrainSt [9] 0 0).1.published = c2DrainSt.published) := by
  constructor
  · intro st data idx now hidx hbuf
    unfold handle_firmware_chunk
    rw [fuel_succ]
    simp only [handleFirmwareChunkF]
    rw [if_neg (Nat.ne_of_lt hidx)]
    rw [show (3 * st.chunk_buffer.length + 7) = (3 * st.chunk_buffer.length + 6) + 1 from rfl]
    rw [pb_step_none _ _ _ ?hpos]
    case hpos =>
      apply position_eq_none
      intro e he
      dsimp only at he
      have hmem := (sortByKey_perm (st.chunk_buffer ++ [(idx, data)])).mem_iff.mp he
      rcases List.mem_append.mp hmem with h1 | h2
      · simpa using hbuf e h1
      · have he2 : e = (idx, data) := by simpa using h2
        subst he2
        simpa using Nat.ne_of_lt hidx
  · decide

def c2St : OtaSt := { OtaManager.new with ota_state := .downloading, current_chunk := 1 }

/-- **C2** counterexample: a chunk with index `0 < current_chunk = 1`
modifies the manager: it lands in the reorder buffer. -/
theorem c2_counterexample :
    0 < c2St.current_chunk ∧
    (handle_firmware_chunk c2St [7] 0 0).1.chunk_buffer ≠ c2St.chunk_buffer := by decide

theorem c2_stale_chunk_buffered_witness :
    handle_firmware_chunk c2St [7] 0 0 =
      ({ c2St with chunk_buffer := sortByKey (c2St.chunk_buffer ++ [(0, [7])]) },
       Outcome.ok) :=
  c2_stale_chunk_buffered.1 c2St [7] 0 0 (by decide) (by decide)

theorem mergeAttrs_eq (st : OtaSt) (shared : SharedAttrs) :
    mergeAttrs st shared =
      { st with
          fw_title := shared.fw_title.elim st.fw_title (fun t => some (strTrim t)),
          fw_version := shared.fw_version.elim st.fw_version (fun v => some (strTrim v)),
          fw_size := shared.fw_size.elim st.fw_size (fun s => some (s % U32)),
          fw_checksum := shared.fw_checksum.elim st.fw_checksum (fun c => some (strTrim c)),
          fw_checksum_algorithm :=
            shared.fw_checksum_algorithm.elim st.fw_checksum_algorithm
              (fun a => some (strTrim a)) } := by
  obtain ⟨t, v, s, c, a⟩ := shared
  cases t <;> cases v <;> cases s <;> cases c <;> cases a <;> rfl

def isChunkRequest : PubEvent → Bool
  | .chunkRequest _ _ _ => true
  | _ => false

theorem reqChunk_cases (st : OtaSt) (i : Nat) :
    reqChunk st i = st ∨
    reqChunk st i =
      mqttPublish st (.chunkRequest st.firmware_request_id i st.chunk_size) := by
  unfold reqChunk request_firmware_chunk
  cases st.fw_size with
  | none => right; rfl
  | some n =>
    dsimp only
    split
    · left; rfl
    · right; rfl

theorem reqChunk_shape (st : OtaSt) (i : Nat) :
    ∃ pub, reqChunk st i = { st with published := pub } := by
  rcases reqChunk_cases st i with h | h
  · exact ⟨st.published, by rw [h]⟩
  · exact ⟨st.published ++ [.chunkRequest st.firmware_request_id i st.chunk_size],
      by rw [h]; rfl⟩

theorem sendTel_pub (st : OtaSt) :
    ∃ tc evs, sendTel st = { st with telemetry_counter := tc,
                                     published := st.published ++ evs } ∧
      evs.filter isChunkRequest = [] := by
  unfold sendTel send_ota_telemetry mqttPublish
  dsimp only
  split
  · exact ⟨(st.telemetry_counter + 1) % U32, [], by simp, rfl⟩
  · exact ⟨0, [.telemetry (telemetryPayload { st with telemetry_counter := 0 })], rfl, rfl⟩

theorem elim_map_eq {α β : Type} (o : Option α) (g : α → β) :
    o.elim none (fun x => some (g x)) = o.map g := by cases o <;> rfl

/-- `st'` differs from `st` at most in `telemetry_counter` and
`published` (the shape every publish-only code path produces). -/
def TCPubOnly (st st' : OtaSt) : Prop :=
  ∃ tc pub, st' = { st with telemetry_counter := tc, published := pub }

theorem tcPub_of_pubOnly {st st' : OtaSt}
    (h : ∃ pub, st' = { st with published := pub }) : TCPubOnly st st' := by
  obtain ⟨p, rfl⟩ := h
  exact ⟨st.telemetry_counter, p, rfl⟩

theorem tcPub_trans {a b c : OtaSt} (h1 : TCPubOnly a b) (h2 : TCPubOnly b c) :
    TCPubOnly a c := by
  obtain ⟨t1, p1, rfl⟩ := h1
  obtain ⟨t2, p2, rfl⟩ := h2
  exact ⟨t2, p2, rfl⟩

theorem pipeline_tcPub (st : OtaSt) : TCPubOnly st (pipelineRequests st) := by
  unfold pipelineRequests
  exact tcPub_trans (tcPub_trans (tcPub_of_pubOnly (reqChunk_shape _ _))
    (tcPub_of_pubOnly (reqChunk_shape _ _))) (tcPub_of_pubOnly (reqChunk_shape _ _))

theorem sessionTail_tcPub (st : OtaSt) : TCPubOnly st (sendTel (pipelineRequests st)) := by
  refine tcPub_trans (pipeline_tcPub st) ?_
  obtain ⟨tc, pub, h⟩ := sendTel_shape (pipelineRequests st)
  exact ⟨tc, pub, h⟩

/-- The state after the session-reset block of the session-start path
(before the pipeline requests and the telemetry send). -/
def sessionResetSt (m : OtaSt) (now : Nat) : OtaSt :=
  { setOtaState m .downloading with
      firmware_request_id := ((setOtaState m OtaState.downloading).firmware_request_id + 1) % U32,
      current_chunk := 0, received_size := 0, hasher := [],
      chunk_buffer := [], last_chunk_received := now }

/-- The incomplete-descriptor path: fields already stored, error
returned, state otherwise untouched. -/
theorem hsa_incomplete (st : OtaSt) (shared : SharedAttrs) (now : Nat)
    (h : (mergeAttrs st shared).fw_title = none ∨
         (mergeAttrs st shared).fw_version = none) :
    handle_shared_attributes st shared now =
      (mergeAttrs st shared, Outcome.err "Incomplete firmware attributes received") := by
  unfold handle_shared_attributes
  dsimp only
  rcases h with h | h
  · rw [h]
  · rcases ht : (mergeAttrs st shared).fw_title with _ | a
    · rfl
    · rw [h]

/-- The session-start path of `handle_shared_attributes`: descriptor
complete and differing, the session state is reset and everything after
is publish-only. -/
theorem hsa_start (st : OtaSt) (shared : SharedAttrs) (now : Nat) (ft fv : String)
    (hT : (mergeAttrs st shared).fw_title = some ft)
    (hV : (mergeAttrs st shared).fw_version = some fv)
    (hdiff : strTrim ft ≠ strTrim st.current_fw_title ∨
             strTrim fv ≠ strTrim st.current_fw_version) :
    (handle_shared_attributes st shared now).2 = Outcome.ok ∧
    TCPubOnly (sessionResetSt (mergeAttrs st shared) now)
      (handle_shared_attributes st shared now).1 := by
  have hc1 : (mergeAttrs st shared).current_fw_title = st.current_fw_title := by
    rw [mergeAttrs_eq]
  have hc2 : (mergeAttrs st shared).current_fw_version = st.current_fw_version := by
    rw [mergeAttrs_eq]
  unfold handle_shared_attributes
  dsimp only
  rw [hT, hV]
  dsimp only
  rw [if_pos (by rw [hc1, hc2]; exact hdiff)]
  exact ⟨rfl, sessionTail_tcPub _⟩

/-- **C10** (error handling, implicit; confirmed):
`handle_shared_attributes` stores whichever of the five `fw_*` fields
are present *before* checking completeness, so a response lacking
`fw_title` or `fw_version` returns the
"Incomplete firmware attributes received" error yet leaves `fw_size`,
`fw_checksum` and `fw_checksum_algorithm` persistently stored; a later
response carrying only a (new) title and version then starts a session
(`Downloading`) that still carries those stored values. -/
theorem c10_incomplete_attrs_persist (shared : SharedAttrs) (now : Nat)
    (hmiss : shared.fw_title = none ∨ shared.fw_version = none) :
    (handle_shared_attributes OtaManager.new shared now).2 =
        Outcome.err "Incomplete firmware attributes received" ∧
    (handle_shared_attributes OtaManager.new shared now).1.fw_size =
        shared.fw_size.map (fun s => s % U32) ∧
    (handle_shared_attributes OtaManager.new shared now).1.fw_checksum =
        shared.fw_checksum.map strTrim ∧
    (handle_shared_attributes OtaManager.new shared now).1.fw_checksum_algorithm =
        shared.fw_checksum_algorithm.map strTrim ∧
    (∀ t v now2, strTrim t = t → t ≠ "Weather Station" →
      ((handle_shared_attributes (handle_shared_attributes OtaManager.new shared now).1
          ⟨some t, some v, none, none, none⟩ now2).1.ota_state = OtaState.downloading ∧
       (handle_shared_attributes (handle_shared_attributes OtaManager.new shared now).1
          ⟨some t, some v, none, none, none⟩ now2).1.fw_checksum =
            shared.fw_checksum.map strTrim ∧
       (handle_shared_attributes (handle_shared_attributes OtaManager.new shared now).1
          ⟨some t, some v, none, none, none⟩ now2).1.fw_size =
            shared.fw_size.map (fun s => s % U32))) := by
  have hm : (mergeAttrs OtaManager.new shared).fw_title = none ∨
            (mergeAttrs OtaManager.new shared).fw_version = none := by
    rcases hmiss with h | h
    · left; rw [mergeAttrs_eq, h]; rfl
    · right; rw [mergeAttrs_eq, h]; rfl
  have h1 := hsa_incomplete OtaManager.new shared now hm
  rw [h1]
  refine ⟨rfl, ?_, ?_, ?_, ?_⟩
  · rw [mergeAttrs_eq]; exact elim_map_eq _ _
  · rw [mergeAttrs_eq]; exact elim_map_eq _ _
  · rw [mergeAttrs_eq]; exact elim_map_eq _ _
  · intro t v now2 htrim hne
    have hcur : (mergeAttrs OtaManager.new shared).current_fw_title = "Weather Station" := by
      rw [mergeAttrs_eq]; rfl
    have hT : (mergeAttrs (mergeAttrs OtaManager.new shared)
        ⟨some t, some v, none, none, none⟩).fw_title = some (strTrim t) := by
      rw [mergeAttrs_eq]; rfl
    have hV : (mergeAttrs (mergeAttrs OtaManager.new shared)
        ⟨some t, some v, none, none, none⟩).fw_version = some (strTrim v) := by
      rw [mergeAttrs_eq]; rfl
    have hdiff : strTrim (strTrim t) ≠
          strTrim (mergeAttrs OtaManager.new shared).current_fw_title ∨
        strTrim (strTrim v) ≠
          strTrim (mergeAttrs OtaManager.new shared).current_fw_version := by
      left
      rw [htrim, htrim, hcur]
      intro hc
      exact hne (hc.trans (by decide))
    have h2 := (hsa_start (mergeAttrs OtaManager.new shared)
      ⟨some t, some v, none, none, none⟩ now2 (strTrim t) (strTrim v) hT hV hdiff).2
    obtain ⟨tc, pub, heq⟩ := h2
    rw [heq]
    refine ⟨rfl, ?_, ?_⟩
    · simp only [sessionResetSt, setOtaState, mergeAttrs_eq, OtaManager.new]
      cases shared.fw_checksum <;> rfl
    · simp only [sessionResetSt, setOtaState, mergeAttrs_eq, OtaManager.new]
      cases shared.fw_size <;> rfl

theorem c10_incomplete_attrs_persist_witness :
    (handle_shared_attributes OtaManager.new ⟨none, none, some 8192, some " abc ", some "sha256"⟩ 0).2 =
        Outcome.err "Incomplete firmware attributes received" ∧
    (handle_shared_attributes OtaManager.new ⟨none, none, some 8192, some " abc ", some "sha256"⟩ 0).1.fw_checksum =
        some "abc" ∧
    (handle_shared_attributes
        (handle_shared_attributes OtaManager.new ⟨none, none, some 8192, some " abc ", some "sha256"⟩ 0).1
        ⟨some "WS2", some "V2", none, none, none⟩ 1).1.ota_state = OtaState.downloading ∧
    (handle_shared_attributes
        (handle_shared_attributes OtaManager.new ⟨none, none, some 8192, some " abc ", some "sha256"⟩ 0).1
        ⟨some "WS2", some "V2", none, none, none⟩ 1).1.fw_checksum = some "abc" := by
  have h := c10_incomplete_attrs_persist ⟨none, none, some 8192, some " abc ", some "sha256"⟩ 0
    (Or.inl rfl)
  have h5 := h.2.2.2.2 "WS2" "V2" 1 (by decide) (by decide)
  exact ⟨h.1, h.2.2.1.trans (by decide), h5.1, h5.2.1.trans (by decide)⟩

theorem reqChunk_zero_received (s : OtaSt) (i : Nat) (hr : s.received_size = 0)
    (hsz : s.fw_size ≠ some 0) :
    reqChunk s i = mqttPublish s (.chunkRequest s.firmware_request_id i s.chunk_size) := by
  unfold reqChunk request_firmware_chunk
  rcases ho : s.fw_size with _ | k
  · rfl
  · dsimp only
    rw [if_neg]
    have hk : k ≠ 0 := fun h0 => hsz (by rw [ho, h0])
    rw [hr]
    omega

/-- With nothing received yet and a non-zero (or absent) advertised
size, the unrolled pipeline loop publishes requests for indices
0, 1, 2. -/
theorem pipeline_three (s : OtaSt) (hr : s.received_size = 0)
    (hc : s.current_chunk = 0) (hsz : s.fw_size ≠ some 0) :
    pipelineRequests s = { s with published := s.published ++
      [.chunkRequest s.firmware_request_id 0 s.chunk_size,
       .chunkRequest s.firmware_request_id 1 s.chunk_size,
       .chunkRequest s.firmware_request_id 2 s.chunk_size] } := by
  unfold pipelineRequests
  rcases ho : s.fw_size with _ | k
  · simp [reqChunk, request_firmware_chunk, mqttPublish, ho, hr, hc]
  · have hk : k ≠ 0 := fun h0 => hsz (by rw [ho, h0])
    simp [reqChunk, request_firmware_chunk, mqttPublish, ho, hr, hc, Nat.le_zero, hk]

/-- **C5** (functional correctness; amended): at session start (new
descriptor accepted, erase and ota-begin succeeding), the `for i in
0..3` loop requests `current_chunk + i` with `current_chunk` still 0,
so exactly three chunk requests carrying the **distinct** indices 0, 1
and 2 are published — *unless* the advertised `fw_size` is 0, in which
case `request_firmware_chunk` suppresses every request
(`received_size >= fw_size` holds immediately) and no chunk request is
published at all (see the counterexample). -/
theorem c5_three_distinct_requests (st : OtaSt) (shared : SharedAttrs) (now : Nat)
    (ft fv : String)
    (hT : (mergeAttrs st shared).fw_title = some ft)
    (hV : (mergeAttrs st shared).fw_version = some fv)
    (hdiff : strTrim ft ≠ strTrim st.current_fw_title ∨
             strTrim fv ≠ strTrim st.current_fw_version)
    (hsz : (mergeAttrs st shared).fw_size ≠ some 0) :
    (handle_shared_attributes st shared now).2 = Outcome.ok ∧
    ((handle_shared_attributes st shared now).1.published.drop
        st.published.length).filter isChunkRequest =
      [.chunkRequest ((st.firmware_request_id + 1) % U32) 0 st.chunk_size,
       .chunkRequest ((st.firmware_request_id + 1) % U32) 1 st.chunk_size,
       .chunkRequest ((st.firmware_request_id + 1) % U32) 2 st.chunk_size] := by
  have hc1 : (mergeAttrs st shared).current_fw_title = st.current_fw_title := by
    rw [mergeAttrs_eq]
  have hc2 : (mergeAttrs st shared).current_fw_version = st.current_fw_version := by
    rw [mergeAttrs_eq]
  have hfr : (mergeAttrs st shared).firmware_request_id = st.firmware_request_id := by
    rw [mergeAttrs_eq]
  have hcs : (mergeAttrs st shared).chunk_size = st.chunk_size := by
    rw [mergeAttrs_eq]
  have hpub : (mergeAttrs st shared).published = st.published := by
    rw [mergeAttrs_eq]
  unfold handle_shared_attributes
  dsimp only
  rw [hT, hV]
  dsimp only
  rw [if_pos (by rw [hc1, hc2]; exact hdiff)]
  refine ⟨rfl, ?_⟩
  rw [pipeline_three _ rfl rfl (by exact hsz)]
  obtain ⟨tc, evs, hsend, hevs⟩ := sendTel_pub _
  rw [hsend]
  simp [mqttPublish, setOtaState, hpub, hfr, hcs, isChunkRequest, hevs,
        List.drop_left, List.append_assoc]

def c5Attrs : SharedAttrs := ⟨some "WS", some "V2", some 0, some "x", some "sha256"⟩

/-- **C5** counterexample: a descriptor advertising `fw_size = 0`
starts a session (state becomes `Downloading`) but publishes **zero**
chunk requests, refuting "exactly three chunk requests are published".
-/
theorem c5_counterexample :
    (handle_shared_attributes OtaManager.new c5Attrs 0).1.ota_state =
        OtaState.downloading ∧
    (handle_shared_attributes OtaManager.new c5Attrs 0).1.published.filter
        isChunkRequest = [] := by decide

def c5Attrs' : SharedAttrs := ⟨some "WS", some "V2", some 8192, some "x", some "sha256"⟩

theorem c5_three_distinct_requests_witness :
    (handle_shared_attributes OtaManager.new c5Attrs' 0).2 = Outcome.ok ∧
    ((handle_shared_attributes OtaManager.new c5Attrs' 0).1.published.drop
        OtaManager.new.published.length).filter isChunkRequest =
      [.chunkRequest 1 0 4096, .chunkRequest 1 1 4096, .chunkRequest 1 2 4096] := by
  have h := c5_three_distinct_requests OtaManager.new c5Attrs' 0 "WS" "V2"
    (by decide) (by decide) (Or.inl (by decide)) (by decide)
  exact ⟨h.1, h.2.trans (by decide)⟩

/-- **C3** (functional correctness; amended): `process_firmware`
compares the computed lowercase hex SHA-256 digest to the stored
`fw_checksum` by **exact string equality** (`==`), with no
case-folding and no trimming at comparison time (the stored checksum
was whitespace-trimmed when it was received).  Exact equality advances
the state through `Updating` to `Updated` and reboots; any difference —
including a checksum that equals the digest up to ASCII case — yields
`Failed("Checksum verification failed")`. -/
theorem c3_checksum_exact_compare (st : OtaSt) (c : String)
    (hcs : st.fw_checksum = some c) :
    (c = sha256Hex st.hasher →
      (process_firmware st).1.ota_state = OtaState.updated ∧
      OtaState.updating ∈ (process_firmware st).1.stateLog ∧
      (process_firmware st).1.restarted = true ∧
      (process_firmware st).2 = Outcome.restart) ∧
    (c ≠ sha256Hex st.hasher →
      (process_firmware st).1.ota_state =
          OtaState.failed "Checksum verification failed" ∧
      (process_firmware st).2 = Outcome.err "Checksum verification failed") := by
  constructor
  · intro he
    rw [pf_match st c hcs he.symm]
    refine ⟨rfl, ?_, rfl, rfl⟩
    simp
  · intro he
    rw [pf_mismatch st c hcs (fun h => he h.symm)]
    exact ⟨rfl, rfl⟩

def c3St : OtaSt :=
  { OtaManager.new with ota_state := .downloaded, fw_checksum := some (sha256Hex []) }

theorem c3_checksum_exact_compare_witness :
    (process_firmware c3St).1.ota_state = OtaState.updated ∧
    OtaState.updating ∈ (process_firmware c3St).1.stateLog ∧
    (process_firmware c3St).1.restarted = true ∧
    (process_firmware c3St).2 = Outcome.restart :=
  (c3_checksum_exact_compare c3St (sha256Hex []) rfl).1 rfl

def c3Upper : String := "E3B0C44298FC1C149AFBF4C8996FB92427AE41E4649B934CA495991B7852B855"

def c3St' : OtaSt :=
  { OtaManager.new with ota_state := .downloaded, fw_checksum := some c3Upper }

set_option maxRecDepth 100000 in
/-- **C3** counterexample: a stored checksum equal to the computed
digest up to ASCII case (here the uppercase SHA-256 of the empty
stream), already free of surrounding whitespace, still fails
verification: the state becomes `Failed("Checksum verification
failed")` instead of advancing to `Updating`. -/
theorem c3_counterexample :
    asciiLower c3Upper = sha256Hex c3St'.hasher ∧
    strTrim c3Upper = c3Upper ∧
    (process_firmware c3St').1.ota_state =
      OtaState.failed "Checksum verification failed" ∧
    (process_firmware c3St').1.ota_state ≠ OtaState.updating := by decide

/-! ### C4: permutation-independence of the download

The delivery-order independence proof works with a canonical
mid-session state `midSt`: chunks `0..m-1` committed (hashed and
written to flash in index order), a sorted list `S` of indices waiting
in the reorder buffer, and an arbitrary publish log. -/

/-- Bytes committed after the first `m` chunks. -/
def partBytes (cs : List (List Nat)) (m : Nat) : Nat := ((cs.take m).flatten).length

/-- The reorder-buffer contents for the waiting index list `S`. -/
def bufOf (cs : List (List Nat)) (S : List Nat) : List (Nat × List Nat) :=
  S.map (fun i => (i, cs.getD i []))

/-- The least index `≥ t` not in the ascending list `S`: the commit
frontier reached once chunk `t` has been committed. -/
def nextFree : List Nat → Nat → Nat
  | [], t => t
  | s :: S, t => if s < t then nextFree S t else if s = t then nextFree S (t + 1) else t

/-- Canonical mid-session state over a base manager state `st0`. -/
def midSt (st0 : OtaSt) (cs : List (List Nat)) (m : Nat) (S : List Nat)
    (pub : List PubEvent) (last : Nat) : OtaSt :=
  { st0 with
      current_chunk := m,
      received_size := partBytes cs m,
      hasher := (cs.take m).flatten,
      flashWrites := cs.take m,
      chunk_buffer := bufOf cs S,
      published := pub,
      last_chunk_received := last }

theorem nextFree_ge (S : List Nat) (t : Nat) : t ≤ nextFree S t := by
  induction S generalizing t with
  | nil => exact Nat.le_refl t
  | cons s S ih =>
    unfold nextFree
    by_cases h1 : s < t
    · rw [if_pos h1]; exact ih t
    · rw [if_neg h1]
      by_cases h2 : s = t
      · rw [if_pos h2]; exact Nat.le_trans (Nat.le_succ t) (ih (t + 1))
      · rw [if_neg h2]

theorem nextFree_not_mem (S : List Nat) (t : Nat) (hs : List.Sorted (· < ·) S) :
    nextFree S t ∉ S := by
  induction S generalizing t with
  | nil => simp
  | cons s S ih =>
    have hs' : List.Sorted (· < ·) S := hs.of_cons
    have hlt : ∀ j ∈ S, s < j := fun j hj => List.rel_of_sorted_cons hs j hj
    unfold nextFree
    by_cases h1 : s < t
    · rw [if_pos h1]
      intro hmem
      rcases List.mem_cons.mp hmem with h | h
      · have := nextFree_ge S t; omega
      · exact ih t hs' h
    · rw [if_neg h1]
      by_cases h2 : s = t
      · rw [if_pos h2]
        intro hmem
        rcases List.mem_cons.mp hmem with h | h
        · have := nextFree_ge S (t + 1); omega
        · exact ih (t + 1) hs' h
      · rw [if_neg h2]
        intro hmem
        rcases List.mem_cons.mp hmem with h | h
        · omega
        · have := hlt _ h; omega

theorem nextFree_le (S : List Nat) (t N : Nat) (hb : ∀ j ∈ S, j < N) (ht : t ≤ N) :
    nextFree S t ≤ N := by
  induction S generalizing t with
  | nil => exact ht
  | cons s S ih =>
    unfold nextFree
    by_cases h1 : s < t
    · rw [if_pos h1]; exact ih t (fun j hj => hb j (by simp [hj])) ht
    · rw [if_neg h1]
      by_cases h2 : s = t
      · rw [if_pos h2]
        have hsN : s < N := hb s (by simp)
        exact ih (t + 1) (fun j hj => hb j (by simp [hj])) (by omega)
      · rw [if_neg h2]; exact ht

theorem nextFree_mem (S : List Nat) (t : Nat) (hs : List.Sorted (· < ·) S)
    (hall : ∀ j ∈ S, t ≤ j) :
    ∀ u, t ≤ u → u < nextFree S t → u ∈ S := by
  induction S generalizing t with
  | nil => intro u h1 h2; unfold nextFree at h2; omega
  | cons s S ih =>
    have hs' : List.Sorted (· < ·) S := hs.of_cons
    have hlt : ∀ j ∈ S, s < j := fun j hj => List.rel_of_sorted_cons hs j hj
    have hst : t ≤ s := hall s (by simp)
    intro u hu hult
    unfold nextFree at hult
    rw [if_neg (by omega)] at hult
    by_cases h2 : s = t
    · rw [if_pos h2] at hult
      rcases Nat.eq_or_lt_of_le hu with h | h
      · simp [← h, ← h2]
      · have := ih (t + 1) hs' (fun j hj => by have := hlt j hj; omega) u (by omega) hult
        simp [this]
    · rw [if_neg h2] at hult
      omega

theorem nextFree_stop (S : List Nat) (M : Nat) (h : ∀ j ∈ S, M < j) :
    nextFree S M = M := by
  cases S with
  | nil => rfl
  | cons s S =>
    have := h s (by simp)
    unfold nextFree
    rw [if_neg (by omega), if_neg (by omega)]

theorem nextFree_cons_self (S : List Nat) (t : Nat) :
    nextFree (t :: S) t = nextFree S (t + 1) := by
  simp only [nextFree]
  rw [if_pos trivial, if_neg (Nat.lt_irrefl t)]

theorem filter_ge_of_all (S : List Nat) (t : Nat) (h : ∀ j ∈ S, t ≤ j) :
    S.filter (fun j => t ≤ j) = S := by
  rw [List.filter_eq_self]
  intro a ha
  simpa using h a ha

theorem position_bufOf_none (cs : List (List Nat)) (S : List Nat) (t : Nat)
    (h : ∀ j ∈ S, j ≠ t) :
    position (fun e => e.1 = t) (bufOf cs S) = none := by
  induction S with
  | nil => rfl
  | cons s S ih =>
    have hst : s ≠ t := h s (by simp)
    simp only [bufOf, List.map_cons, position]
    rw [if_neg (by simpa using hst)]
    have hrest := ih (fun j hj => h j (by simp [hj]))
    simp only [bufOf] at hrest
    rw [hrest]
    rfl

theorem take_succ_getD (cs : List (List Nat)) (m : Nat) (hm : m < cs.length) :
    cs.take (m + 1) = cs.take m ++ [cs.getD m []] := by
  induction cs generalizing m with
  | nil => simp at hm
  | cons c cs ih =>
    cases m with
    | zero => simp [List.getD]
    | succ m =>
      simp only [List.take_succ_cons, List.getD_cons_succ, List.cons_append]
      rw [ih m (by simpa using hm)]

theorem flatten_take_succ (cs : List (List Nat)) (m : Nat) (hm : m < cs.length) :
    (cs.take (m + 1)).flatten = (cs.take m).flatten ++ cs.getD m [] := by
  rw [take_succ_getD cs m hm]
  simp

theorem partBytes_succ (cs : List (List Nat)) (m : Nat) (hm : m < cs.length) :
    partBytes cs (m + 1) = partBytes cs m + (cs.getD m []).length := by
  unfold partBytes
  rw [flatten_take_succ cs m hm]
  simp

theorem partBytes_le (cs : List (List Nat)) (k : Nat) :
    partBytes cs k ≤ cs.flatten.length := by
  unfold partBytes
  conv_rhs => rw [← List.take_append_drop k cs]
  rw [List.flatten_append, List.length_append]
  omega

theorem partBytes_total (cs : List (List Nat)) :
    partBytes cs cs.length = cs.flatten.length := by
  unfold partBytes
  rw [List.take_length]

theorem partBytes_lt (cs : List (List Nat)) (k : Nat) (hk : k < cs.length)
    (hne : ∀ b ∈ cs, b ≠ []) :
    partBytes cs k < cs.flatten.length := by
  unfold partBytes
  conv_rhs => rw [← List.take_append_drop k cs]
  rw [List.flatten_append, List.length_append]
  have hdrop : cs.drop k = cs.getD k [] :: cs.drop (k + 1) := by
    rw [List.getD_eq_getElem cs [] hk]
    exact List.drop_eq_getElem_cons hk
  have hpos : 0 < ((cs.drop k).flatten).length := by
    rw [hdrop]
    simp only [List.flatten_cons, List.length_append]
    have hmem : cs.getD k [] ∈ cs := by
      rw [List.getD_eq_getElem cs [] hk]
      exact List.getElem_mem hk
    have := List.length_pos.mpr (hne _ hmem)
    omega
  omega

theorem pf_snd_ne_ok (st : OtaSt) : (process_firmware st).2 ≠ Outcome.ok := by
  cases hcs : st.fw_checksum with
  | none => rw [pf_none st hcs]; simp
  | some c =>
    by_cases he : sha256Hex st.hasher = c
    · rw [pf_match st c hcs he]; simp
    · rw [pf_mismatch st c hcs he]; simp

theorem length_le_flatten (cs : List (List Nat)) (hne : ∀ b ∈ cs, b ≠ []) :
    cs.length ≤ cs.flatten.length := by
  induction cs with
  | nil => simp
  | cons c cs ih =>
    simp only [List.length_cons, List.flatten_cons, List.length_append]
    have hc : 0 < c.length := List.length_pos.mpr (hne c (by simp))
    have := ih (fun b hb => hne b (by simp [hb]))
    omega

/-- The chunk-request event published for index `i` by a manager whose
request id and chunk size are those of `st0`. -/
def chunkReq (st0 : OtaSt) (i : Nat) : PubEvent :=
  PubEvent.chunkRequest st0.firmware_request_id i st0.chunk_size

/-- The outcome of draining the reorder buffer from a mid-session state
(`process_buffered_chunks`): the frontier advances to `nextFree S t`,
each commit issuing duplicate requests for the new frontier; if the
frontier reaches the chunk count, finalization runs. -/
def drainResult (st0 : OtaSt) (cs : List (List Nat)) (t : Nat) (S : List Nat)
    (pub : List PubEvent) (last now : Nat) : OtaSt × Outcome :=
  if nextFree S t < cs.length then
    (midSt st0 cs (nextFree S t) (S.filter (fun j => nextFree S t ≤ j))
      (pub ++ List.replicate (nextFree S t - t) (chunkReq st0 (nextFree S t)))
      (if t < nextFree S t then now else last), Outcome.ok)
  else
    process_firmware (setOtaState (midSt st0 cs cs.length [] pub now) OtaState.downloaded)

/-- The outcome of committing in-order chunk `m` and then draining:
the frontier advances to `nextFree S (m+1)`. -/
def commitResult (st0 : OtaSt) (cs : List (List Nat)) (m : Nat) (S : List Nat)
    (pub : List PubEvent) (now : Nat) : OtaSt × Outcome :=
  if nextFree S (m + 1) < cs.length then
    (midSt st0 cs (nextFree S (m + 1)) (S.filter (fun j => nextFree S (m + 1) ≤ j))
      (pub ++ List.replicate (nextFree S (m + 1) - m) (chunkReq st0 (nextFree S (m + 1))))
      now, Outcome.ok)
  else
    process_firmware (setOtaState (midSt st0 cs cs.length [] pub now) OtaState.downloaded)


theorem midSt_current (st0 : OtaSt) (cs : List (List Nat)) (m : Nat) (S : List Nat)
    (pub : List PubEvent) (last : Nat) :
    (midSt st0 cs m S pub last).current_chunk = m := rfl

theorem midSt_received (st0 : OtaSt) (cs : List (List Nat)) (m : Nat) (S : List Nat)
    (pub : List PubEvent) (last : Nat) :
    (midSt st0 cs m S pub last).received_size = partBytes cs m := rfl

theorem midSt_fw_size (st0 : OtaSt) (cs : List (List Nat)) (m : Nat) (S : List Nat)
    (pub : List PubEvent) (last : Nat) :
    (midSt st0 cs m S pub last).fw_size = st0.fw_size := rfl

theorem midSt_rid (st0 : OtaSt) (cs : List (List Nat)) (m : Nat) (S : List Nat)
    (pub : List PubEvent) (last : Nat) :
    (midSt st0 cs m S pub last).firmware_request_id = st0.firmware_request_id := rfl

theorem midSt_chunk_size (st0 : OtaSt) (cs : List (List Nat)) (m : Nat) (S : List Nat)
    (pub : List PubEvent) (last : Nat) :
    (midSt st0 cs m S pub last).chunk_size = st0.chunk_size := rfl

theorem midSt_published (st0 : OtaSt) (cs : List (List Nat)) (m : Nat) (S : List Nat)
    (pub : List PubEvent) (last : Nat) :
    (midSt st0 cs m S pub last).published = pub := rfl

theorem midSt_buffer (st0 : OtaSt) (cs : List (List Nat)) (m : Nat) (S : List Nat)
    (pub : List PubEvent) (last : Nat) :
    (midSt st0 cs m S pub last).chunk_buffer = bufOf cs S := rfl

theorem midSt_set_pub (st0 : OtaSt) (cs : List (List Nat)) (m : Nat) (S : List Nat)
    (pub : List PubEvent) (last : Nat) (pub2 : List PubEvent) :
    { midSt st0 cs m S pub last with published := pub2 } = midSt st0 cs m S pub2 last := rfl

theorem midSt_set_buf (st0 : OtaSt) (cs : List (List Nat)) (m : Nat) (S : List Nat)
    (pub : List PubEvent) (last : Nat) (S2 : List Nat) :
    { midSt st0 cs m S pub last with chunk_buffer := bufOf cs S2 }
      = midSt st0 cs m S2 pub last := rfl

theorem drainResult_lt (st0 : OtaSt) (cs : List (List Nat)) (t : Nat) (S : List Nat)
    (pub : List PubEvent) (last now : Nat) (h : nextFree S t < cs.length) :
    drainResult st0 cs t S pub last now
      = (midSt st0 cs (nextFree S t) (S.filter (fun j => nextFree S t ≤ j))
          (pub ++ List.replicate (nextFree S t - t) (chunkReq st0 (nextFree S t)))
          (if t < nextFree S t then now else last), Outcome.ok) := by
  unfold drainResult
  rw [if_pos h]

theorem drainResult_ge (st0 : OtaSt) (cs : List (List Nat)) (t : Nat) (S : List Nat)
    (pub : List PubEvent) (last now : Nat) (h : ¬ nextFree S t < cs.length) :
    drainResult st0 cs t S pub last now
      = process_firmware (setOtaState (midSt st0 cs cs.length [] pub now)
          OtaState.downloaded) := by
  unfold drainResult
  rw [if_neg h]

theorem commitResult_lt (st0 : OtaSt) (cs : List (List Nat)) (m : Nat) (S : List Nat)
    (pub : List PubEvent) (now : Nat) (h : nextFree S (m + 1) < cs.length) :
    commitResult st0 cs m S pub now
      = (midSt st0 cs (nextFree S (m + 1)) (S.filter (fun j => nextFree S (m + 1) ≤ j))
          (pub ++ List.replicate (nextFree S (m + 1) - m) (chunkReq st0 (nextFree S (m + 1))))
          now, Outcome.ok) := by
  unfold commitResult
  rw [if_pos h]

theorem commitResult_ge (st0 : OtaSt) (cs : List (List Nat)) (m : Nat) (S : List Nat)
    (pub : List PubEvent) (now : Nat) (h : ¬ nextFree S (m + 1) < cs.length) :
    commitResult st0 cs m S pub now
      = process_firmware (setOtaState (midSt st0 cs cs.length [] pub now)
          OtaState.downloaded) := by
  unfold commitResult
  rw [if_neg h]

theorem midSt_set_buf_proj (st0 : OtaSt) (cs : List (List Nat)) (t : Nat) (S : List Nat)
    (pub : List PubEvent) (last : Nat) (S2 : List Nat) (c : Nat) (hc : c = t) :
    OtaSt.mk (midSt st0 cs t S pub last).current_fw_title
      (midSt st0 cs t S pub last).current_fw_version
      (midSt st0 cs t S pub last).fw_title
      (midSt st0 cs t S pub last).fw_version
      (midSt st0 cs t S pub last).fw_size
      (midSt st0 cs t S pub last).fw_checksum
      (midSt st0 cs t S pub last).fw_checksum_algorithm
      (midSt st0 cs t S pub last).ota_state
      (midSt st0 cs t S pub last).request_id
      (midSt st0 cs t S pub last).firmware_request_id
      c
      (midSt st0 cs t S pub last).received_size
      (midSt st0 cs t S pub last).hasher
      (bufOf cs S2)
      (midSt st0 cs t S pub last).chunk_size
      (midSt st0 cs t S pub last).last_chunk_received
      (midSt st0 cs t S pub last).telemetry_counter
      (midSt st0 cs t S pub last).published
      (midSt st0 cs t S pub last).flashWrites
      (midSt st0 cs t S pub last).stateLog
      (midSt st0 cs t S pub last).restarted
    = midSt st0 cs c S2 pub last := by subst hc; rfl

theorem drain_spec (st0 : OtaSt) (cs : List (List Nat)) (n now : Nat)
    (hsz : st0.fw_size = some n) (htot : n = cs.flatten.length) (hU : n < U32)
    (hne : ∀ b ∈ cs, b ≠ []) :
    ∀ f : Nat,
    (∀ t S pub last, t < cs.length → List.Sorted (· < ·) S →
      (∀ j ∈ S, t ≤ j ∧ j < cs.length) → 2 * S.length + 2 ≤ f →
      processBufferedChunksF f (midSt st0 cs t S pub last) now
        = drainResult st0 cs t S pub last now) ∧
    (∀ m S pub last, m < cs.length → List.Sorted (· < ·) S →
      (∀ j ∈ S, m < j ∧ j < cs.length) → 2 * S.length + 3 ≤ f →
      handleFirmwareChunkF f (midSt st0 cs m S pub last) (cs.getD m []) m now
        = commitResult st0 cs m S pub now) := by
  have hNn : cs.length ≤ n := htot ▸ length_le_flatten cs hne
  intro f
  induction f with
  | zero => exact ⟨fun _ _ _ _ _ _ _ h => absurd h (by omega),
                  fun _ _ _ _ _ _ _ h => absurd h (by omega)⟩
  | succ f ih =>
    constructor
    · -- P: process_buffered_chunks on a mid-session state
      intro t S pub last ht hsort hS hf
      simp only [processBufferedChunksF]
      rw [show (midSt st0 cs t S pub last).current_chunk = t from rfl,
          show (midSt st0 cs t S pub last).chunk_buffer = bufOf cs S from rfl]
      cases S with
      | nil =>
        rw [show bufOf cs ([] : List Nat) = [] from rfl]
        simp only [position]
        rw [drainResult_lt st0 cs t [] pub last now
          (by rw [show nextFree [] t = t from rfl]; exact ht)]
        rw [show nextFree ([] : List Nat) t = t from rfl]
        rw [if_neg (Nat.lt_irrefl t), Nat.sub_self]
        simp only [List.replicate_zero, List.append_nil, List.filter_nil]
      | cons s S2 =>
        have hsort2 : List.Sorted (· < ·) S2 := hsort.of_cons
        have hrel : ∀ j ∈ S2, s < j := fun j hj => List.rel_of_sorted_cons hsort j hj
        have hts : t ≤ s := (hS s (by simp)).1
        rcases Nat.eq_or_lt_of_le hts with heq | hlt2
        · subst heq
          rw [show bufOf cs (t :: S2) = (t, cs.getD t []) :: bufOf cs S2 from rfl]
          simp only [position]
          rw [if_pos (by decide : (decide True = true))]
          simp only [List.getD_cons_zero, List.eraseIdx_cons_zero]
          rw [midSt_set_buf_proj st0 cs t (t :: S2) pub last S2 t rfl]
          have hQ := ih.2 t S2 pub last ht hsort2
            (fun j hj => ⟨hrel j hj, (hS j (by simp [hj])).2⟩)
            (by simp at hf; omega)
          rw [hQ]
          have hnfm : t + 1 ≤ nextFree S2 (t + 1) := nextFree_ge S2 (t + 1)
          have hnmem : nextFree S2 (t + 1) ∉ S2 := nextFree_not_mem S2 (t + 1) hsort2
          rcases Nat.lt_or_ge (nextFree S2 (t + 1)) cs.length with hnf | hnf
          · rw [commitResult_lt st0 cs t S2 pub now hnf]
            have hP := ih.1 (nextFree S2 (t + 1))
              (S2.filter (fun j => nextFree S2 (t + 1) ≤ j))
              (pub ++ List.replicate (nextFree S2 (t + 1) - t)
                (chunkReq st0 (nextFree S2 (t + 1)))) now hnf
              (hsort2.filter _)
              (fun j hj => by
                rcases List.mem_filter.mp hj with ⟨hj1, hj2⟩
                exact ⟨by simpa using hj2, (hS j (by simp [hj1])).2⟩)
              (by
                have := List.length_filter_le (fun j => decide (nextFree S2 (t + 1) ≤ j)) S2
                simp at hf
                omega)
            show processBufferedChunksF f _ now = _
            rw [hP]
            have hstop : nextFree (S2.filter (fun j => nextFree S2 (t + 1) ≤ j))
                (nextFree S2 (t + 1)) = nextFree S2 (t + 1) := by
              refine nextFree_stop _ _ (fun j hj => ?_)
              rcases List.mem_filter.mp hj with ⟨hj1, hj2⟩
              have hle : nextFree S2 (t + 1) ≤ j := by simpa using hj2
              have hne2 : j ≠ nextFree S2 (t + 1) := fun h => hnmem (h ▸ hj1)
              omega
            rw [drainResult_lt _ _ _ _ _ _ _ (by rw [hstop]; exact hnf)]
            rw [hstop, Nat.sub_self, if_neg (Nat.lt_irrefl _)]
            rw [filter_ge_of_all _ _ (fun j hj => by
              simpa using (List.mem_filter.mp hj).2)]
            rw [drainResult_lt st0 cs t (t :: S2) pub last now
              (by rw [nextFree_cons_self]; exact hnf)]
            rw [nextFree_cons_self]
            rw [show (t :: S2).filter (fun j => nextFree S2 (t + 1) ≤ j)
                = S2.filter (fun j => nextFree S2 (t + 1) ≤ j) from by
              rw [List.filter_cons]
              rw [if_neg (by simp; omega)]]
            rw [if_pos (by omega : t < nextFree S2 (t + 1))]
            simp only [List.replicate_zero, List.append_nil]
          · rw [commitResult_ge st0 cs t S2 pub now (by omega)]
            rw [drainResult_ge st0 cs t (t :: S2) pub last now
              (by rw [nextFree_cons_self]; omega)]
            rcases hpf : process_firmware (setOtaState (midSt st0 cs cs.length [] pub now)
                OtaState.downloaded) with ⟨a, b⟩
            have hb := pf_snd_ne_ok (setOtaState (midSt st0 cs cs.length [] pub now)
                OtaState.downloaded)
            rw [hpf] at hb
            cases b with
            | ok => exact absurd rfl hb
            | err e => rfl
            | restart => rfl
        · have hnone : position (fun e => e.1 = t) (bufOf cs (s :: S2)) = none := by
            refine position_bufOf_none cs (s :: S2) t (fun j hj => ?_)
            rcases List.mem_cons.mp hj with h | h
            · omega
            · have := hrel j h; omega
          rw [hnone]
          rw [drainResult_lt st0 cs t (s :: S2) pub last now
            (by rw [nextFree_stop (s :: S2) t (fun j hj => by
                  rcases List.mem_cons.mp hj with h | h
                  · omega
                  · have := hrel j h; omega)]
                exact ht)]
          rw [nextFree_stop (s :: S2) t (fun j hj => by
            rcases List.mem_cons.mp hj with h | h
            · omega
            · have := hrel j h; omega)]
          rw [if_neg (Nat.lt_irrefl t), Nat.sub_self]
          rw [filter_ge_of_all _ _ (fun j hj => (hS j hj).1)]
          simp only [List.replicate_zero, List.append_nil]
    · -- Q: an in-order commit followed by the drain
      intro m S pub last hm hsort hS hf
      have hdm : cs.getD m [] ∈ cs := by
        rw [List.getD_eq_getElem cs [] hm]
        exact List.getElem_mem hm
      have hdne : cs.getD m [] ≠ [] := hne _ hdm
      have hpb1 : partBytes cs (m + 1) ≤ n := htot ▸ partBytes_le cs (m + 1)
      have hrs : (partBytes cs m + (cs.getD m []).length) % U32 = partBytes cs (m + 1) := by
        rw [← partBytes_succ cs m hm]
        exact Nat.mod_eq_of_lt (by omega)
      have hcc : (m + 1) % U32 = m + 1 := Nat.mod_eq_of_lt (by omega)
      simp only [handleFirmwareChunkF]
      rw [if_pos (show m = (midSt st0 cs m S pub last).current_chunk from rfl)]
      rw [if_neg (fun h0 => hdne (List.length_eq_zero.mp h0))]
      simp only [midSt, hsz, hrs, hcc]
      rw [← show midSt st0 cs (m + 1) S pub now
            = { st0 with fw_size := some n,
                         current_chunk := m + 1,
                         received_size := partBytes cs (m + 1),
                         hasher := (List.take m cs).flatten ++ cs.getD m [],
                         chunk_buffer := bufOf cs S,
                         last_chunk_received := now,
                         published := pub,
                         flashWrites := List.take m cs ++ [cs.getD m []] } from by
        simp only [midSt]
        rw [flatten_take_succ cs m hm, take_succ_getD cs m hm, hsz]]
      rcases Nat.lt_or_ge (m + 1) cs.length with hlt | hge1
      · have hplt : partBytes cs (m + 1) < n := htot ▸ partBytes_lt cs (m + 1) hlt hne
        rw [if_neg (by omega : ¬ partBytes cs (m + 1) ≥ n)]
        have hP := ih.1 (m + 1) S pub now hlt hsort
          (fun j hj => ⟨(hS j hj).1, (hS j hj).2⟩) (by omega)
        rw [hP]
        rcases Nat.lt_or_ge (nextFree S (m + 1)) cs.length with hnf | hnf
        · rw [drainResult_lt st0 cs (m + 1) S pub now now hnf]
          simp only [ite_self, midSt_current]
          rw [reqChunk_lt _ _ n ((midSt_fw_size _ _ _ _ _ _).trans hsz)
            (by rw [midSt_received]; exact htot ▸ partBytes_lt cs _ hnf hne)]
          simp only [midSt_published, midSt_rid, midSt_chunk_size, midSt_set_pub]
          rw [commitResult_lt st0 cs m S pub now hnf]
          have hgeS : m + 1 ≤ nextFree S (m + 1) := nextFree_ge S (m + 1)
          have hsub : nextFree S (m + 1) - m = (nextFree S (m + 1) - (m + 1)) + 1 := by omega
          rw [hsub, List.replicate_succ', show PubEvent.chunkRequest st0.firmware_request_id
            (nextFree S (m + 1)) st0.chunk_size = chunkReq st0 (nextFree S (m + 1)) from rfl,
            ← List.append_assoc]
          rfl
        · rw [drainResult_ge st0 cs (m + 1) S pub now now (by omega)]
          rw [commitResult_ge st0 cs m S pub now (by omega)]
          rcases hpf : process_firmware (setOtaState (midSt st0 cs cs.length [] pub now)
              OtaState.downloaded) with ⟨a, b⟩
          have hb := pf_snd_ne_ok (setOtaState (midSt st0 cs cs.length [] pub now)
              OtaState.downloaded)
          rw [hpf] at hb
          cases b with
          | ok => exact absurd rfl hb
          | err e => rfl
          | restart => rfl
      · have hmN : m + 1 = cs.length := by omega
        have hSnil : S = [] := by
          rcases S with _ | ⟨s, S2⟩
          · rfl
          · exact absurd (hS s (by simp)) (by omega)
        subst hSnil
        have hgesz : partBytes cs (m + 1) ≥ n := by
          rw [hmN, partBytes_total, ← htot]
        rw [if_pos hgesz]
        rw [commitResult_ge st0 cs m [] pub now
          (by rw [show nextFree [] (m + 1) = m + 1 from rfl]; omega)]
        rw [hmN]

theorem pf_fields (st : OtaSt) :
    (process_firmware st).1.hasher = st.hasher ∧
    (process_firmware st).1.flashWrites = st.flashWrites := by
  cases hcs : st.fw_checksum with
  | none => rw [pf_none st hcs]; exact ⟨rfl, rfl⟩
  | some c =>
    by_cases he : sha256Hex st.hasher = c
    · rw [pf_match st c hcs he]; exact ⟨rfl, rfl⟩
    · rw [pf_mismatch st c hcs he]; exact ⟨rfl, rfl⟩

theorem midSt_restarted (st0 : OtaSt) (cs : List (List Nat)) (m : Nat) (S : List Nat)
    (pub : List PubEvent) (last : Nat) :
    (midSt st0 cs m S pub last).restarted = st0.restarted := rfl

theorem midSt_hasher (st0 : OtaSt) (cs : List (List Nat)) (m : Nat) (S : List Nat)
    (pub : List PubEvent) (last : Nat) :
    (midSt st0 cs m S pub last).hasher = (cs.take m).flatten := rfl

theorem midSt_flash (st0 : OtaSt) (cs : List (List Nat)) (m : Nat) (S : List Nat)
    (pub : List PubEvent) (last : Nat) :
    (midSt st0 cs m S pub last).flashWrites = cs.take m := rfl

theorem bufOf_length (cs : List (List Nat)) (S : List Nat) :
    (bufOf cs S).length = S.length := by
  simp [bufOf]

/-- Insertion of an index into an ascending list of indices: the key
order produced by `sort_by_key` on the reorder buffer. -/
def insSorted (i : Nat) : List Nat → List Nat
  | [] => [i]
  | j :: S => if i < j then i :: j :: S else j :: insSorted i S

theorem mem_insSorted (i k : Nat) (S : List Nat) :
    k ∈ insSorted i S ↔ k = i ∨ k ∈ S := by
  induction S with
  | nil => simp [insSorted]
  | cons j S ih =>
    unfold insSorted
    by_cases h : i < j
    · rw [if_pos h]; simp
    · rw [if_neg h]
      simp only [List.mem_cons, ih]
      tauto

theorem length_insSorted (i : Nat) (S : List Nat) :
    (insSorted i S).length = S.length + 1 := by
  induction S with
  | nil => rfl
  | cons j S ih =>
    unfold insSorted
    by_cases h : i < j
    · rw [if_pos h]; simp
    · rw [if_neg h]; simp [ih]

theorem insSorted_sorted (i : Nat) (S : List Nat) (hs : List.Sorted (· < ·) S)
    (hni : i ∉ S) : List.Sorted (· < ·) (insSorted i S) := by
  induction S with
  | nil => simp [insSorted]
  | cons j S ih =>
    have hs' := hs.of_cons
    have hrel : ∀ k ∈ S, j < k := fun k hk => List.rel_of_sorted_cons hs k hk
    unfold insSorted
    by_cases h : i < j
    · rw [if_pos h]
      refine List.sorted_cons.mpr ⟨fun b hb => ?_, hs⟩
      rcases List.mem_cons.mp hb with hb | hb
      · omega
      · have := hrel b hb; omega
    · rw [if_neg h]
      have hij : j < i := by
        rcases Nat.lt_or_ge j i with h1 | h1
        · exact h1
        · exact absurd (by omega : i = j) (fun he => hni (by simp [he]))
      refine List.sorted_cons.mpr ⟨fun b hb => ?_, ih hs' (fun hm => hni (by simp [hm]))⟩
      rcases (mem_insSorted i b S).mp hb with hb | hb
      · omega
      · exact hrel b hb

theorem insertByKey_head (cs : List (List Nat)) (x : Nat × List Nat) (S : List Nat)
    (h : ∀ k ∈ S, x.1 < k) : insertByKey x (bufOf cs S) = x :: bufOf cs S := by
  cases S with
  | nil => rfl
  | cons j S =>
    rw [show bufOf cs (j :: S) = (j, cs.getD j []) :: bufOf cs S from rfl]
    unfold insertByKey
    rw [if_pos (h j (by simp))]

theorem sortByKey_bufOf (cs : List (List Nat)) (S : List Nat) (i : Nat)
    (hs : List.Sorted (· < ·) S) (hni : i ∉ S) :
    sortByKey (bufOf cs S ++ [(i, cs.getD i [])]) = bufOf cs (insSorted i S) := by
  induction S with
  | nil => rfl
  | cons j S ih =>
    have hs' := hs.of_cons
    have hrel : ∀ k ∈ S, j < k := fun k hk => List.rel_of_sorted_cons hs k hk
    rw [show bufOf cs (j :: S) ++ [(i, cs.getD i [])]
        = (j, cs.getD j []) :: (bufOf cs S ++ [(i, cs.getD i [])]) from rfl]
    rw [show sortByKey ((j, cs.getD j []) :: (bufOf cs S ++ [(i, cs.getD i [])]))
        = insertByKey (j, cs.getD j []) (sortByKey (bufOf cs S ++ [(i, cs.getD i [])])) from rfl]
    rw [ih hs' (fun hm => hni (by simp [hm]))]
    by_cases h : i < j
    · rw [show insSorted i (j :: S) = i :: j :: S from by
        simp only [insSorted]; rw [if_pos h]]
      have hSins : insSorted i S = i :: S := by
        cases S with
        | nil => rfl
        | cons k S2 =>
          unfold insSorted
          rw [if_pos (by have := hrel k (by simp); omega)]
      rw [hSins]
      rw [show bufOf cs (i :: S) = (i, cs.getD i []) :: bufOf cs S from rfl]
      unfold insertByKey
      rw [if_neg (by simp; omega)]
      rw [insertByKey_head cs (j, cs.getD j []) S hrel]
      rfl
    · rw [show insSorted i (j :: S) = j :: insSorted i S from by
        simp only [insSorted]; rw [if_neg h]]
      have hij : j < i := by
        rcases Nat.lt_or_ge j i with h1 | h1
        · exact h1
        · exact absurd (by omega : i = j) (fun he => hni (by simp [he]))
      rw [show bufOf cs (j :: insSorted i S)
          = (j, cs.getD j []) :: bufOf cs (insSorted i S) from rfl]
      rw [insertByKey_head cs (j, cs.getD j []) (insSorted i S)
        (fun k hk => by
          rcases (mem_insSorted i k S).mp hk with hk | hk
          · omega
          · exact hrel k hk)]

theorem step_inorder (st0 : OtaSt) (cs : List (List Nat)) (n now : Nat)
    (hsz : st0.fw_size = some n) (htot : n = cs.flatten.length) (hU : n < U32)
    (hne : ∀ b ∈ cs, b ≠ []) (m : Nat) (S : List Nat) (pub : List PubEvent) (last : Nat)
    (hm : m < cs.length) (hsort : List.Sorted (· < ·) S)
    (hS : ∀ j ∈ S, m < j ∧ j < cs.length) :
    handle_firmware_chunk (midSt st0 cs m S pub last) (cs.getD m []) m now
      = commitResult st0 cs m S pub now := by
  unfold handle_firmware_chunk
  rw [show (midSt st0 cs m S pub last).chunk_buffer.length = S.length from by
    rw [midSt_buffer, bufOf_length]]
  exact (drain_spec st0 cs n now hsz htot hU hne (3 * S.length + 8)).2 m S pub last
    hm hsort hS (by omega)

theorem step_buffered (st0 : OtaSt) (cs : List (List Nat)) (n now : Nat)
    (hsz : st0.fw_size = some n) (htot : n = cs.flatten.length) (hU : n < U32)
    (hne : ∀ b ∈ cs, b ≠ []) (m i : Nat) (S : List Nat) (pub : List PubEvent) (last : Nat)
    (hm : m < cs.length) (hsort : List.Sorted (· < ·) S)
    (hS : ∀ j ∈ S, m < j ∧ j < cs.length)
    (hi : i ≠ m) (hmi : m ≤ i) (hiN : i < cs.length) (hiS : i ∉ S) :
    handle_firmware_chunk (midSt st0 cs m S pub last) (cs.getD i []) i now
      = (midSt st0 cs m (insSorted i S) pub last, Outcome.ok) := by
  have hsort2 : List.Sorted (· < ·) (insSorted i S) := insSorted_sorted i S hsort hiS
  have hall : ∀ j ∈ insSorted i S, m < j := fun j hj => by
    rcases (mem_insSorted i j S).mp hj with h | h
    · omega
    · exact (hS j h).1
  have hstop : nextFree (insSorted i S) m = m :=
    nextFree_stop _ _ hall
  unfold handle_firmware_chunk
  rw [show (midSt st0 cs m S pub last).chunk_buffer.length = S.length from by
    rw [midSt_buffer, bufOf_length]]
  rw [fuel_succ S.length]
  simp only [handleFirmwareChunkF]
  rw [if_neg (show ¬ i = (midSt st0 cs m S pub last).current_chunk from by
    rw [midSt_current]; exact hi)]
  rw [show sortByKey ((midSt st0 cs m S pub last).chunk_buffer ++ [(i, cs.getD i [])])
      = bufOf cs (insSorted i S) from by
    rw [midSt_buffer]; exact sortByKey_bufOf cs S i hsort hiS]
  rw [midSt_set_buf_proj st0 cs m S pub last (insSorted i S) _
    (midSt_current st0 cs m S pub last)]
  rw [midSt_current]
  rw [(drain_spec st0 cs n now hsz htot hU hne (3 * S.length + 7)).1 m (insSorted i S)
    pub last hm hsort2
    (fun j hj => ⟨Nat.le_of_lt (hall j hj), by
      rcases (mem_insSorted i j S).mp hj with h | h
      · omega
      · exact (hS j h).2⟩)
    (by rw [length_insSorted]; omega)]
  rw [drainResult_lt st0 cs m (insSorted i S) pub last now (by rw [hstop]; exact hm)]
  rw [hstop, Nat.sub_self, if_neg (Nat.lt_irrefl m)]
  rw [filter_ge_of_all _ _ (fun j hj => Nat.le_of_lt (hall j hj))]
  simp only [List.replicate_zero, List.append_nil]

theorem deliver_drain (st0 : OtaSt) (cs : List (List Nat)) (n now : Nat)
    (hsz : st0.fw_size = some n) (htot : n = cs.flatten.length) (hU : n < U32)
    (hne : ∀ b ∈ cs, b ≠ []) (hr0 : st0.restarted = false) :
    ∀ K : List Nat, ∀ m : Nat, ∀ S : List Nat, ∀ pub : List PubEvent, ∀ last : Nat,
      m < cs.length →
      List.Sorted (· < ·) S →
      (∀ j ∈ S, m < j ∧ j < cs.length) →
      (∀ i ∈ K, m ≤ i ∧ i < cs.length) →
      K.Nodup →
      (∀ j ∈ S, j ∉ K) →
      (∀ j, m ≤ j → j < cs.length → j ∈ K ∨ j ∈ S) →
      (deliverChunks (midSt st0 cs m S pub last)
          (K.map (fun i => (i, cs.getD i []))) now).hasher = cs.flatten ∧
      (deliverChunks (midSt st0 cs m S pub last)
          (K.map (fun i => (i, cs.getD i []))) now).flashWrites = cs := by
  intro K
  induction K with
  | nil =>
    intro m S pub last hm hsort hS hK hnd hdisj hcomp
    rcases hcomp m (Nat.le_refl m) hm with h | h
    · simp at h
    · exact absurd ((hS m h).1) (Nat.lt_irrefl m)
  | cons i K2 ih =>
    intro m S pub last hm hsort hS hK hnd hdisj hcomp
    have hKi : m ≤ i ∧ i < cs.length := hK i (by simp)
    have hniK2 : i ∉ K2 := (List.nodup_cons.mp hnd).1
    have hnd2 : K2.Nodup := (List.nodup_cons.mp hnd).2
    rw [show (deliverChunks (midSt st0 cs m S pub last)
          ((i :: K2).map (fun i => (i, cs.getD i []))) now)
        = deliverChunks
            (if (midSt st0 cs m S pub last).restarted then midSt st0 cs m S pub last
             else (handle_firmware_chunk (midSt st0 cs m S pub last)
               (cs.getD i []) i now).1)
            (K2.map (fun i => (i, cs.getD i []))) now from rfl]
    rw [if_neg (show ¬ (midSt st0 cs m S pub last).restarted = true from by
      rw [midSt_restarted, hr0]; simp)]
    by_cases hi : i = m
    · subst hi
      rw [step_inorder st0 cs n now hsz htot hU hne i S pub last hm hsort hS]
      rcases Nat.lt_or_ge (nextFree S (i + 1)) cs.length with hnf | hnf
      · rw [commitResult_lt st0 cs i S pub now hnf]
        have hge1 : i + 1 ≤ nextFree S (i + 1) := nextFree_ge S (i + 1)
        have hnmem : nextFree S (i + 1) ∉ S := nextFree_not_mem S (i + 1) hsort
        exact ih (nextFree S (i + 1)) (S.filter (fun j => nextFree S (i + 1) ≤ j))
          (pub ++ List.replicate (nextFree S (i + 1) - i)
            (chunkReq st0 (nextFree S (i + 1)))) now
          hnf (hsort.filter _)
          (fun j hj => by
            rcases List.mem_filter.mp hj with ⟨hj1, hj2⟩
            have hle : nextFree S (i + 1) ≤ j := by simpa using hj2
            have : j ≠ nextFree S (i + 1) := fun he => hnmem (he ▸ hj1)
            exact ⟨by omega, (hS j hj1).2⟩)
          (fun i2 hi2 => by
            have h1 := hK i2 (by simp [hi2])
            have hne2 : i2 ≠ i := fun he => hniK2 (he ▸ hi2)
            refine ⟨?_, h1.2⟩
            by_contra hcon
            have hmem : i2 ∈ S := nextFree_mem S (i + 1) hsort
              (fun j hj => (hS j hj).1) i2 (by omega) (by omega)
            exact hdisj i2 hmem (by simp [hi2]))
          hnd2
          (fun j hj => by
            rcases List.mem_filter.mp hj with ⟨hj1, _⟩
            have := hdisj j hj1
            simp at this
            exact this.2)
          (fun j hmj hjN => by
            rcases hcomp j (by omega) hjN with h | h
            · rcases List.mem_cons.mp h with h | h
              · omega
              · exact Or.inl h
            · exact Or.inr (List.mem_filter.mpr ⟨h, by simpa using hmj⟩))
      · have hK2nil : K2 = [] := by
          rcases hcase : K2 with _ | ⟨i2, K3⟩
          · rfl
          · exfalso
            have hi2 : i2 ∈ K2 := by rw [hcase]; simp
            have h1 := hK i2 (by simp [hi2])
            have hne2 : i2 ≠ i := fun he => hniK2 (he ▸ hi2)
            have hmem : i2 ∈ S := nextFree_mem S (i + 1) hsort
              (fun j hj => (hS j hj).1) i2 (by omega) (by omega)
            exact hdisj i2 hmem (by simp [hi2])
        subst hK2nil
        rw [commitResult_ge st0 cs i S pub now (by omega)]
        rw [show (([] : List Nat).map (fun i => (i, cs.getD i [])))
            = ([] : List (Nat × List Nat)) from rfl]
        rw [show ∀ st : OtaSt, deliverChunks st [] now = st from fun _ => rfl]
        constructor
        · rw [(pf_fields _).1]
          rw [show (setOtaState (midSt st0 cs cs.length [] pub now)
              OtaState.downloaded).hasher = (cs.take cs.length).flatten from rfl]
          rw [List.take_length]
        · rw [(pf_fields _).2]
          rw [show (setOtaState (midSt st0 cs cs.length [] pub now)
              OtaState.downloaded).flashWrites = cs.take cs.length from rfl]
          rw [List.take_length]
    · have hmi : m ≤ i := hKi.1
      have hiS : i ∉ S := fun hin => hdisj i hin (by simp)
      rw [step_buffered st0 cs n now hsz htot hU hne m i S pub last hm hsort hS hi hmi
        hKi.2 hiS]
      exact ih m (insSorted i S) pub last hm (insSorted_sorted i S hsort hiS)
        (fun j hj => by
          rcases (mem_insSorted i j S).mp hj with h | h
          · exact ⟨by omega, by omega⟩
          · exact hS j h)
        (fun i2 hi2 => hK i2 (by simp [hi2]))
        hnd2
        (fun j hj => by
          rcases (mem_insSorted i j S).mp hj with h | h
          · rw [h]; exact hniK2
          · have := hdisj j h
            simp at this
            exact this.2)
        (fun j hmj hjN => by
          rcases hcomp j hmj hjN with h | h
          · rcases List.mem_cons.mp h with h | h
            · exact Or.inr ((mem_insSorted i j S).mpr (Or.inl h))
            · exact Or.inl h
          · exact Or.inr ((mem_insSorted i j S).mpr (Or.inr h)))

/-- **C4** (algebraic/relational): for chunk bodies `cs` (all non-empty)
whose total length is the advertised `fw_size`, delivering the full
indexed chunk set `{(0, cs[0]), ..., (N-1, cs[N-1])}` to
`handle_firmware_chunk` in ANY permutation of the indices (each exactly
once) commits exactly the in-order byte stream: the final digest input
is the concatenation `cs.flatten` and the flash append calls are
`cs[0], ..., cs[N-1]` in index order, out-of-order arrivals being held
in the key-sorted reorder buffer until contiguous — the same digest
input and flash sequence as in-order delivery.  CONFIRMED as stated.
(The session-start hypotheses `current_chunk = 0`, `received_size = 0`,
empty hasher/flash/buffer and a known `fw_size < 2^32` are the state
`handle_shared_attributes` establishes when it accepts a descriptor.) -/
theorem c4_permutation_independence (st0 : OtaSt) (cs : List (List Nat))
    (ds : List (Nat × List Nat)) (n now : Nat)
    (hsz : st0.fw_size = some n) (htot : n = cs.flatten.length) (hU : n < U32)
    (hne : ∀ b ∈ cs, b ≠ []) (hr0 : st0.restarted = false)
    (hN : 0 < cs.length)
    (hc0 : st0.current_chunk = 0) (hrs0 : st0.received_size = 0)
    (hh0 : st0.hasher = []) (hf0 : st0.flashWrites = [])
    (hb0 : st0.chunk_buffer = [])
    (hperm : ds.Perm (indexChunks cs)) :
    (deliverChunks st0 ds now).hasher = cs.flatten ∧
    (deliverChunks st0 ds now).flashWrites = cs := by
  have hbody : ∀ d ∈ ds, d = (d.1, cs.getD d.1 []) := by
    intro d hd
    have hmem : d ∈ indexChunks cs := hperm.subset hd
    simp only [indexChunks, List.mem_map, List.mem_range] at hmem
    obtain ⟨i, _, he⟩ := hmem
    rw [← he]
  have hds : ds = (ds.map Prod.fst).map (fun i => (i, cs.getD i [])) := by
    rw [List.map_map]
    conv_lhs => rw [show ds = ds.map id from (List.map_id ds).symm]
    refine List.map_congr_left (fun d hd => ?_)
    exact hbody d hd
  have hfst : (indexChunks cs).map Prod.fst = List.range cs.length := by
    rw [indexChunks, List.map_map]
    exact List.map_id _
  have hKperm : (ds.map Prod.fst).Perm (List.range cs.length) := by
    rw [← hfst]
    exact hperm.map Prod.fst
  have hKmem : ∀ i, i ∈ ds.map Prod.fst ↔ i < cs.length := by
    intro i
    rw [hKperm.mem_iff, List.mem_range]
  have hKnd : (ds.map Prod.fst).Nodup := hKperm.nodup_iff.mpr (List.nodup_range _)
  have hst0 : midSt st0 cs 0 [] st0.published st0.last_chunk_received = st0 :=
    OtaSt.ext rfl rfl rfl rfl rfl rfl rfl rfl rfl rfl hc0.symm hrs0.symm hh0.symm
      hb0.symm rfl rfl rfl rfl hf0.symm rfl rfl
  have H := deliver_drain st0 cs n now hsz htot hU hne hr0 (ds.map Prod.fst) 0 []
    st0.published st0.last_chunk_received hN List.sorted_nil
    (fun j hj => absurd hj (List.not_mem_nil j))
    (fun i hi => ⟨Nat.zero_le i, (hKmem i).mp hi⟩)
    hKnd
    (fun j hj => absurd hj (List.not_mem_nil j))
    (fun j _ hjN => Or.inl ((hKmem j).mpr hjN))
  rw [hst0, ← hds] at H
  exact H

def c4St : OtaSt :=
  { OtaManager.new with ota_state := .downloading, fw_size := some 2 }

theorem c4_permutation_independence_witness :
    (deliverChunks c4St [(1, [2]), (0, [1])] 0).hasher = [1, 2] ∧
    (deliverChunks c4St [(1, [2]), (0, [1])] 0).flashWrites = [[1], [2]] :=
  c4_permutation_independence c4St [[1], [2]] [(1, [2]), (0, [1])] 2 0
    rfl (by decide) (by decide) (by decide) rfl (by decide) rfl rfl rfl rfl rfl
    (by decide)
